import Mathlib

/-!
Verification of the PasteHTML add-on sanitizer (`__init__.py`).

The development shallowly embeds the markup-filter engine of the source file:

* the whitelist tables (source lines 38-120, plus the union on line 222);
* the inline-style regex `(.+?) *: *(.+?);` (line 221), modelled with the
  exact lazy / greedy backtracking semantics of Python `re.findall`;
* the streaming cleaner `NonFormatTagCleaner` (lines 128-218) as a state
  machine over a stream of tokenizer events (start tag / end tag / data),
  the tokenizer itself (Python's `html.parser.HTMLParser`) being the
  external collaborator that produces those events;
* the driver `cleanTag` (lines 244-249) including the blank-line strip;
* `downloadMedia` (lines 252-307) over oracles for the file system and
  the network; `SaveImageToMedia` (QImage re-encode + `media.addFile`)
  is kept as an opaque oracle since it is entirely Qt/Anki machinery.

Python exceptions are modelled with `Except String`; attribute values are
`Option String` because `HTMLParser` reports a valueless attribute as
`None`.  Machine integers do not overflow here (the counter is a Python
`int`), so the counter is a plain `Int`.
-/

/-! ## Whitelist tables (source lines 38-120) -/

/-- Source lines 38-43: tags that do not have ending tags. -/
def _voidElements : List String :=
  ["area", "base", "basefont", "bgsound", "br", "col",
   "command", "embed", "frame", "hr", "image", "img", "input", "isindex",
   "keygen", "link", "menuitem", "meta", "nextid", "param", "source",
   "track", "wbr"]

/-- Source lines 47-60: tags that should be allowed. -/
def _allowedTagsBase : List String :=
  ["p", "h1", "h2", "h3", "h4", "h5", "blockquote", "pre",
   "img", "a", "span", "br", "code",
   "b", "em", "i", "u", "strong",
   "ul", "ol", "li",
   "div", "table", "tr", "td", "thead", "th", "tbody"]

/-- Source lines 65-67: valid tags that should not appear in the output. -/
def _ignoredTags : List String := ["html", "body"]

/-- Source line 222 (`_allowedTags |= _ignoredTags`) runs at import time,
before any parsing, so the allowed set used by the handlers is the union. -/
def _allowedTags : List String := _allowedTagsBase ++ _ignoredTags

/-- Source lines 71-78. -/
def _allowedAttributes : List String :=
  ["style", "src", "alt", "href", "title", "colspan", "rowspan"]

/-- Source lines 82-91 (the literal lists `background-color` twice;
only membership is ever used). -/
def _allowedStyles : List String :=
  ["font-weight", "color", "background-color", "font-style",
   "text-align", "valign", "background", "background-color"]

/-- Source lines 95-120, in dict-literal insertion order (Python 3 dicts
preserve it, and the code iterates `.items()`). -/
def _overrideStyles : List (String × List (String × String)) :=
  [("table",
     [("box-sizing", "border-box"), ("width", "100%"), ("margin", ".5em"),
      ("border-collapse", "collapse"), ("outline", "1px solid black")]),
   ("th",
     [("position", "relative"), ("border", "1px solid black"),
      ("padding", ".4em"), ("font-size", "1.2em")]),
   ("td",
     [("position", "relative"), ("border", "1px solid black"),
      ("padding", ".2em")]),
   ("div", [("padding", ".2em")])]

/-! ## The style regex (source line 221)

`_styleRegex = re.compile('(.+?) *: *(.+?);')` and its only use,
`_styleRegex.findall(...)` (line 159).  The functions below implement the
exact Python `re` semantics for this pattern:

* `.` matches any character except a newline;
* `(.+?)` is lazy: it tries the shortest extension first and grows only
  when the rest of the pattern fails;
* `" *"` is greedy with backtracking: it eats as many spaces as possible
  and gives characters back only when the rest of the pattern fails;
* `findall` scans left to right, restarting one character further right
  after a failed match attempt, and continuing after the end of each
  successful match. -/

/-- Matches `" *:"` : skip spaces, require a colon.  (The greedy space
loop needs no backtracking here: a shorter space run would have to be
followed by a colon, but the next character is a space by construction.) -/
def skipSpacesColon : List Char → Option (List Char)
  | [] => none
  | c :: r =>
    if c = ' ' then skipSpacesColon r
    else if c = ':' then some r
    else none

/-- Matches the lazy `"(.+?);"` : the value is the shortest nonempty
newline-free chunk whose successor character is a semicolon; the
semicolon is consumed. -/
def matchValue : List Char → Option (List Char × List Char)
  | [] => none
  | c :: r =>
    if c = '\n' then none
    else if r.head? = some ';' then some ([c], r.tail)
    else
      match matchValue r with
      | some (v, rem) => some (c :: v, rem)
      | none => none

/-- Matches `" *(.+?);"` : the space run is greedy, so the deepest
(most-spaces-eaten) alternative is tried first and a space is given back
to the value group only when every longer run fails. -/
def matchSpacesValue : List Char → Option (List Char × List Char)
  | [] => none
  | c :: r =>
    if c = ' ' then
      match matchSpacesValue r with
      | some res => some res
      | none => matchValue (c :: r)
    else matchValue (c :: r)

/-- One anchored attempt of the whole pattern.  `acc` is the (lazy) key
group built so far; on failure of the rest of the pattern the key grows
by one character, exactly as the regex engine backtracks `(.+?)`. -/
def matchKeyAux (acc : List Char) : List Char → Option (String × String × List Char)
  | [] => none
  | c :: rest =>
    if c = '\n' then none
    else
      match skipSpacesColon rest with
      | some afterColon =>
        match matchSpacesValue afterColon with
        | some (v, rem) => some (String.mk (acc ++ [c]), String.mk v, rem)
        | none => matchKeyAux (acc ++ [c]) rest
      | none => matchKeyAux (acc ++ [c]) rest

/-- The `findall` scan.  Fuel only bounds the recursion; every step
consumes at least one character, so `length` fuel is always enough. -/
def findallAux : Nat → List Char → List (String × String)
  | 0, _ => []
  | _ + 1, [] => []
  | fuel + 1, c :: rest =>
    match matchKeyAux [] (c :: rest) with
    | some (k, v, rem) => (k, v) :: findallAux fuel rem
    | none => findallAux fuel rest

/-- `_styleRegex.findall(s)`. -/
def styleRegexFindall (s : String) : List (String × String) :=
  findallAux s.toList.length s.toList

/-! ## Python dict operations

`attrDict` and `styleDict` are Python 3 dicts; assignment to an existing
key keeps its position, assignment to a fresh key appends, `del` removes,
and iteration follows insertion order.  We model them as association
lists with exactly these operations. -/

def dictSet {α : Type} (d : List (String × α)) (k : String) (v : α) :
    List (String × α) :=
  if (d.lookup k).isSome then
    d.map fun kv => if kv.1 = k then (k, v) else kv
  else d ++ [(k, v)]

def dictDel {α : Type} (d : List (String × α)) (k : String) :
    List (String × α) :=
  d.filter fun kv => !(kv.1 == k)

/-! ## Attribute and style processing (source lines 151-191) -/

/-- `cgi.escape(v)` with the default `quote=False`: replace `&`, then
`<`, then `>`.  The sequential replaces are equivalent to this single
pass because the first replace leaves no `<`/`>` behind and the later
replaces only introduce `&` into already-processed text. -/
def cgiEscapeList : List Char → List Char
  | [] => []
  | c :: r =>
    if c = '&' then '&' :: 'a' :: 'm' :: 'p' :: ';' :: cgiEscapeList r
    else if c = '<' then '&' :: 'l' :: 't' :: ';' :: cgiEscapeList r
    else if c = '>' then '&' :: 'g' :: 't' :: ';' :: cgiEscapeList r
    else c :: cgiEscapeList r

def cgiEscape (s : String) : String := String.mk (cgiEscapeList s.toList)

/-- Source lines 152-155: `attrDict = {'style': ''}` then keep the
whitelisted attributes in order. -/
def parseAttrs (attrs : List (String × Option String)) :
    List (String × Option String) :=
  attrs.foldl
    (fun d kv => if kv.1 ∈ _allowedAttributes then dictSet d kv.1 kv.2 else d)
    [("style", some "")]

/-- Source lines 158-161: keep the whitelisted style declarations, later
duplicates overwriting earlier ones. -/
def filterStyles (ps : List (String × String)) : List (String × String) :=
  ps.foldl
    (fun d kv => if kv.1 ∈ _allowedStyles then dictSet d kv.1 kv.2 else d)
    []

def authorStyles (raw : String) : List (String × String) :=
  filterStyles (styleRegexFindall raw)

/-- Source lines 163-166: force-apply the per-tag override styles. -/
def applyOverrides (tag : String) (d : List (String × String)) :
    List (String × String) :=
  match _overrideStyles.lookup tag with
  | some ov => ov.foldl (fun d kv => dictSet d kv.1 kv.2) d
  | none => d

/-- The style dict a start tag of `tag` with raw style string `raw` ends
up with (lines 158-166). -/
def styleDictFor (tag : String) (raw : String) : List (String × String) :=
  applyOverrides tag (authorStyles raw)

/-- Source lines 169-171: `''.join("%s:%s;" % (k, v) ...)`. -/
def serializeStyles (d : List (String × String)) : String :=
  String.join (d.map fun kv => kv.1 ++ ":" ++ kv.2 ++ ";")

/-- The `'%s="%s"' % (k, cgi.escape(v))` pieces of line 188, in dict
order, failing at the first `None` value exactly where `cgi.escape(None)`
raises `AttributeError` (`None` has no `.replace`). -/
def attrPartsE : List (String × Option String) → Except String (List String)
  | [] => Except.ok []
  | kv :: d => do
    let p ←
      match kv.2 with
      | some v => Except.ok (kv.1 ++ "=\"" ++ cgiEscape v ++ "\"")
      | none => Except.error "AttributeError"
    let rest ← attrPartsE d
    Except.ok (p :: rest)

/-- Source lines 186-191: `' ' + ' '.join(...)` when the dict is
nonempty, `''` otherwise. -/
def attrStrE (d : List (String × Option String)) : Except String String :=
  if d.isEmpty then Except.ok ""
  else do
    let parts ← attrPartsE d
    Except.ok (" " ++ String.intercalate " " parts)

/-! ## Media resolution (source lines 225-241 and 252-307) -/

/-- Raw image bytes. -/
def Bytes : Type := List Nat

instance : DecidableEq Bytes := by unfold Bytes; infer_instance

/-- Outcome of `urllib.request.urlopen(url)`.  In the running add-on:
a reachable URL gives `success`, an unreachable one raises
`urllib.error.URLError` (`urlError`), and a scheme-less string such as a
bare file name raises `ValueError` (`exn`). -/
inductive NetResult where
  | success : NetResult
  | urlError : NetResult
  | exn : String → NetResult
deriving DecidableEq

/-- External collaborators: `open(path, 'rb').read()` (with `none`
modelling `OSError`), `urlopen`, and `SaveImageToMedia` (QImage
re-encode + `editor.mw.col.media.addFile`), which the cleaner only
observes as a bytes-to-filename mapping. -/
structure Oracles where
  fs : String → Option Bytes
  net : String → NetResult
  save : Bytes → String

def isPrefixList : List Char → List Char → Bool
  | [], _ => true
  | _ :: _, [] => false
  | c :: p, d :: s => c = d && isPrefixList p s

/-- `url.startswith("file://")` and `url[7:]`, over the characters. -/
def strStartsWith (s p : String) : Bool := isPrefixList p.toList s.toList

def strDrop (s : String) (n : Nat) : String := String.mk (s.toList.drop n)

/-- Source line 259: `re.match(r'^/[A-Za-z]:\\', url)`. -/
def isWindowsDrivePath (u : String) : Bool :=
  match u.toList with
  | '/' :: c :: ':' :: '\\' :: _ => c.isAlpha
  | _ => false

/-- Source lines 252-307.  The `file://` branch strips the scheme,
drops the redundant slash before a Windows drive letter, and falls
through on `OSError`.  On the network branch the code catches only
`URLError` (returning `None`); any other exception propagates.  When
`urlopen` itself succeeds, line 281 evaluates
`response.info().getheader(...)`, and in Python 3 the headers object has
no `getheader` method, so the success path raises `AttributeError`
before a single chunk is read (and line 300's `''.join(chunks)` would
raise `TypeError` on nonempty byte chunks anyway). -/
def downloadMediaE (o : Oracles) (url : String) : Except String (Option Bytes) :=
  let fileAttempt : Option Bytes :=
    if strStartsWith url "file://" then
      let u := strDrop url 7
      let u := if isWindowsDrivePath u then strDrop u 1 else u
      o.fs u
    else none
  match fileAttempt with
  | some b => Except.ok (some b)
  | none =>
    match o.net url with
    | NetResult.urlError => Except.ok none
    | NetResult.exn e => Except.error e
    | NetResult.success => Except.error "AttributeError"

/-! ## The cleaner (source lines 128-218) -/

/-- A tokenizer event delivered by `HTMLParser` to the cleaner.  An
attribute value is `none` when the attribute was written without a
value. -/
inductive Tok where
  | start (tag : String) (attrs : List (String × Option String))
  | endtag (tag : String)
  | data (s : String)
deriving DecidableEq

/-- The cleaner state (source lines 131-134), plus `warnings` capturing
the `tooltip(...)` calls and the ghost field `emitted`, a structured
mirror of `output` recorded at exactly the `writeData` call sites (used
only to state token-level properties of the emission). -/
structure CleanerState where
  nonAllowedTagCountInStack : Int
  output : List String
  tagStack : List String
  parseError : Bool
  warnings : List String
  emitted : List Tok
deriving DecidableEq

def initState : CleanerState :=
  { nonAllowedTagCountInStack := 0, output := [], tagStack := [],
    parseError := false, warnings := [], emitted := [] }

/-- Source lines 138-140 (`writeData`), extended with the lockstep ghost
record of what was written. -/
def writeDataT (s : CleanerState) (str : String) (t : Tok) : CleanerState :=
  if s.nonAllowedTagCountInStack = 0 then
    { s with output := s.output ++ [str], emitted := s.emitted ++ [t] }
  else s

/-- Source lines 143-146: push a non-void tag (the Python list grows at
its end; we store the reversed list, so the stack top is the head) and
count it when it is not allowed. -/
def pushTag (s : CleanerState) (tag : String) : CleanerState :=
  if tag ∈ _voidElements then s
  else
    let s1 := { s with tagStack := tag :: s.tagStack }
    if tag ∈ _allowedTags then s1
    else { s1 with nonAllowedTagCountInStack := s1.nonAllowedTagCountInStack + 1 }

/-- Source lines 151-191: everything `handle_starttag` computes after
the stack update and the ignored-tag early return.  This part of the
handler only reads `self` through the external collaborators, so it is
state-free; it returns the final `attrDict`, the markup fragment passed
to `writeData`, and the tooltip messages issued.

The `style` entry is preset to `some ""`; a `style` attribute written
without a value overwrites it with `none` and then
`_styleRegex.findall(None)` raises `TypeError`.  In the image branch,
`'src' in attrDict` is a key test; a `None` value reaches
`downloadMedia`, where `None.startswith` raises `AttributeError`.
`if imageData:` is Python truthiness: both `None` and empty bytes take
the tooltip branch. -/
def styleRawE (attrs : List (String × Option String)) : Except String String :=
  match (parseAttrs attrs).lookup "style" with
  | some (some v) => Except.ok v
  | some none => Except.error "TypeError"
  | none => Except.error "KeyError"

/-- Lines 158-173: the attribute dict after style filtering, either with
the serialized style dict written back or with the `style` key deleted. -/
def attrDictAfterStyle (tag : String) (attrs : List (String × Option String))
    (styleRaw : String) : List (String × Option String) :=
  if (styleDictFor tag styleRaw).isEmpty then dictDel (parseAttrs attrs) "style"
  else dictSet (parseAttrs attrs) "style"
    (some (serializeStyles (styleDictFor tag styleRaw)))

/-- Lines 176-184: the image branch; returns the possibly updated dict
and the tooltip messages. -/
def imgStepE (o : Oracles) (tag : String)
    (attrDict : List (String × Option String)) :
    Except String (List (String × Option String) × List String) :=
  if tag = "img" then
    match attrDict.lookup "src" with
    | some (some imageUrl) => do
      let imageData ← downloadMediaE o imageUrl
      match imageData with
      | some (b :: bs) =>
        Except.ok (dictSet attrDict "src" (some (o.save (b :: bs))),
                   ([] : List String))
      | _ => Except.ok (attrDict, ["Failed to download " ++ imageUrl])
    | some none => Except.error "AttributeError"
    | none => Except.ok (attrDict, ([] : List String))
  else Except.ok (attrDict, ([] : List String))

def pureStartE (o : Oracles) (tag : String)
    (attrs : List (String × Option String)) :
    Except String (List (String × Option String) × String × List String) := do
  let styleRaw ← styleRawE attrs
  let r ← imgStepE o tag (attrDictAfterStyle tag attrs styleRaw)
  let attrStr ← attrStrE r.1
  Except.ok (r.1, "<" ++ tag ++ attrStr ++ ">", r.2)

/-- Source lines 142-194. -/
def handle_starttag (o : Oracles) (s : CleanerState) (tag : String)
    (attrs : List (String × Option String)) : Except String CleanerState :=
  let s1 := pushTag s tag
  if tag ∈ _ignoredTags then Except.ok s1
  else
    match pureStartE o tag attrs with
    | Except.error e => Except.error e
    | Except.ok (attrDict, frag, warns) =>
      Except.ok (writeDataT { s1 with warnings := s1.warnings ++ warns }
        frag (Tok.start tag attrDict))

/-- Source lines 201-203: pop entries until the top matches `tag`,
flagging a parse error for each discarded entry. -/
def popMism : List String → String → List String × Bool
  | [], _ => ([], false)
  | t :: r, tag =>
    if t = tag then (t :: r, false)
    else ((popMism r tag).1, true)

/-- Source lines 201-206: run the pop loop and pop the matching entry
when one is left.  Only `tagStack` and `parseError` change. -/
def popState (s : CleanerState) (tag : String) : CleanerState :=
  let pm := popMism s.tagStack tag
  let s1 := { s with tagStack := pm.1, parseError := s.parseError || pm.2 }
  match s1.tagStack with
  | [] => s1
  | _ :: r => { s1 with tagStack := r }

/-- Source lines 196-212. -/
def handle_endtag (s : CleanerState) (tag : String) : CleanerState :=
  if tag ∈ _voidElements then s
  else
    let s2 := popState s tag
    if tag ∈ _allowedTags then
      if tag ∈ _ignoredTags then s2
      else writeDataT s2 ("</" ++ tag ++ ">") (Tok.endtag tag)
    else { s2 with nonAllowedTagCountInStack := s2.nonAllowedTagCountInStack - 1 }

/-- One tokenizer event (`handle_starttag` / `handle_endtag` /
`handle_data`, the latter being source lines 214-215). -/
def stepE (o : Oracles) (s : CleanerState) : Tok → Except String CleanerState
  | Tok.start tag attrs => handle_starttag o s tag attrs
  | Tok.endtag tag => Except.ok (handle_endtag s tag)
  | Tok.data d => Except.ok (writeDataT s d (Tok.data d))

/-- `parser.feed(data)` over an event stream. -/
def processE (o : Oracles) (s : CleanerState) : List Tok → Except String CleanerState
  | [] => Except.ok s
  | t :: ts => do processE o (← stepE o s t) ts

/-- Python `\s` on ASCII. -/
def isPySpace (c : Char) : Bool :=
  c = ' ' || c = '\t' || c = '\n' || c = '\r' || c = '\x0b' || c = '\x0c'

/-- Split into chunks, each ending with its newline (except possibly the
last). -/
def lineChunksAux (acc : List Char) : List Char → List (List Char)
  | [] => if acc.isEmpty then [] else [acc]
  | c :: r =>
    if c = '\n' then (acc ++ ['\n']) :: lineChunksAux [] r
    else lineChunksAux (acc ++ [c]) r

/-- Source line 248: `re.sub('^\s*\n', '', data, flags=re.M)`.  At each
line start the greedy `\s*` backtracks so that the match ends with the
last newline of the whitespace run, which removes exactly the
whitespace-only lines together with their terminating newline (a
whitespace-only tail without a newline never matches). -/
def stripBlankLines (s : String) : String :=
  String.mk
    (((lineChunksAux [] s.toList).filter
        (fun l => !(l.all isPySpace && l.getLast? == some '\n'))).foldr
      (· ++ ·) [])

/-- Source lines 244-249: `cleanTag` over an event stream. -/
def cleanTagE (o : Oracles) (toks : List Tok) : Except String String := do
  let s ← processE o initState toks
  Except.ok (stripBlankLines (String.join s.output))

/-! ## Derived specification devices

`pureStepE` packages the state-independent part of one handler step: the
counter delta, the fragments `writeData` would receive, their structured
mirrors, and the tooltip messages.  `stepE` is proved below to be exactly
this information applied to the current state. -/

def countDelta : Tok → Int
  | Tok.start tag _ =>
    if tag ∈ _voidElements then 0 else if tag ∈ _allowedTags then 0 else 1
  | Tok.endtag tag =>
    if tag ∈ _voidElements then 0 else if tag ∈ _allowedTags then 0 else -1
  | Tok.data _ => 0

structure StepInfo where
  delta : Int
  frags : List String
  etoks : List Tok
  warns : List String

def pureStepE (o : Oracles) : Tok → Except String StepInfo
  | Tok.start tag attrs =>
    if tag ∈ _ignoredTags then
      Except.ok { delta := countDelta (Tok.start tag attrs),
                  frags := [], etoks := [], warns := [] }
    else
      match pureStartE o tag attrs with
      | Except.error e => Except.error e
      | Except.ok (attrDict, frag, warns) =>
        Except.ok { delta := countDelta (Tok.start tag attrs),
                    frags := [frag], etoks := [Tok.start tag attrDict],
                    warns := warns }
  | Tok.endtag tag =>
    Except.ok { delta := countDelta (Tok.endtag tag),
                frags :=
                  if tag ∈ _voidElements then []
                  else if tag ∈ _allowedTags ∧ tag ∉ _ignoredTags then
                    ["</" ++ tag ++ ">"]
                  else [],
                etoks :=
                  if tag ∈ _voidElements then []
                  else if tag ∈ _allowedTags ∧ tag ∉ _ignoredTags then
                    [Tok.endtag tag]
                  else [],
                warns := [] }
  | Tok.data d =>
    Except.ok { delta := 0, frags := [d], etoks := [Tok.data d], warns := [] }

/-- The markup fragment a recorded emission corresponds to. -/
def fragOfTok : Tok → String
  | Tok.data d => d
  | Tok.endtag tag => "</" ++ tag ++ ">"
  | Tok.start tag D =>
    "<" ++ tag ++ (match attrStrE D with
      | Except.ok str => str
      | Except.error _ => "") ++ ">"

/-- A fixed oracle environment: every file read fails with `OSError` and
every network access raises `URLError`. -/
def oracleFail : Oracles :=
  { fs := fun _ => none, net := fun _ => NetResult.urlError,
    save := fun _ => "media.jpg" }

/-- Every attribute of a start tag carries a value (`HTMLParser` reports
a valueless attribute as `None`). -/
def valuedTok : Tok → Prop
  | Tok.start _ attrs => ∀ kv ∈ attrs, kv.2.isSome = true
  | Tok.endtag _ => True
  | Tok.data _ => True

/-- No `img` start tag carries a `src` attribute. -/
def noImgSrcTok : Tok → Prop
  | Tok.start tag attrs => tag = "img" → ∀ kv ∈ attrs, ¬ kv.1 = "src"
  | Tok.endtag _ => True
  | Tok.data _ => True

/-- The raw style string a start tag's attributes give to the regex. -/
def styleRawOf (attrs : List (String × Option String)) : String :=
  match styleRawE attrs with
  | Except.ok v => v
  | Except.error _ => ""

/-- No parsed author style value starts with a space (the only such
value the regex can produce is the degenerate single space `" "`). -/
def stableStyleTok : Tok → Prop
  | Tok.start _ attrs =>
    ∀ kv ∈ styleRegexFindall (styleRawOf attrs), ¬ kv.2.toList.head? = some ' '
  | Tok.endtag _ => True
  | Tok.data _ => True

/-- A start tag of a non-allowed, non-void tag (the only token kind that
increments the suppression counter). -/
def disallowedStart : Tok → Prop
  | Tok.start tag _ => tag ∉ _allowedTags ∧ tag ∉ _voidElements
  | Tok.endtag _ => False
  | Tok.data _ => False

/-- Allowed content: text, start tags of allowed or void tags
(with valued attributes), and end tags of allowed or void tags. -/
def innerTok : Tok → Prop
  | Tok.start tag attrs =>
    (tag ∈ _allowedTags ∨ tag ∈ _voidElements) ∧ ∀ kv ∈ attrs, kv.2.isSome = true
  | Tok.endtag tag => tag ∈ _allowedTags ∨ tag ∈ _voidElements
  | Tok.data _ => True

/-- All running counter values stay nonnegative, starting from `c`
(the counter evolution is exactly the running sum of `countDelta`). -/
def CountsOk : Int → List Tok → Prop
  | _, [] => True
  | c, t :: ts => 0 ≤ c + countDelta t ∧ CountsOk (c + countDelta t) ts

/-- The override declarations of a tag (empty for tags without an
override entry). -/
def ovrList (tag : String) : List (String × String) :=
  (_overrideStyles.lookup tag).getD []

/-- Keys the style regex reproduces verbatim: nonempty, and free of
spaces, colons, semicolons and newlines. -/
def NiceKeyL (k : List Char) : Prop :=
  k ≠ [] ∧ ∀ c ∈ k, c ≠ ' ' ∧ c ≠ ':' ∧ c ≠ ';' ∧ c ≠ '\n'

/-- Values the style regex reproduces verbatim: nonempty, not starting
with a space, semicolon-free after the first character, newline-free. -/
def StableValL (v : List Char) : Prop :=
  v ≠ [] ∧ ¬ v.head? = some ' ' ∧ (∀ c ∈ v.drop 1, c ≠ ';') ∧ ∀ c ∈ v, c ≠ '\n'

/-- Shape of the `style` entry of an emitted attribute dict: when
present it is the first entry and serializes filtered author styles
followed by the tag's overrides; when absent the tag has no override
entry. -/
def GoodStyle (tag : String) (D : List (String × Option String)) : Prop :=
  match D.lookup "style" with
  | some sv => ∃ S rest A, sv = some S ∧ D = ("style", some S) :: rest ∧
      (∀ kv ∈ A, kv.1 ∈ _allowedStyles ∧ StableValL kv.2.toList) ∧
      (A.map Prod.fst).Nodup ∧
      A ++ ovrList tag ≠ [] ∧
      S = serializeStyles (A ++ ovrList tag)
  | none => _overrideStyles.lookup tag = none

/-- One `property : value ;` declaration with `m` spaces before and `n`
spaces after the colon. -/
def spacedDeclChars (k v : List Char) (m n : Nat) : List Char :=
  k ++ (List.replicate m ' ' ++ ':' :: (List.replicate n ' ' ++ v ++ [';']))

/-- A whole declarations string, one spaced declaration per pair. -/
def spacedJoinChars : List (List Char × List Char × Nat × Nat) → List Char
  | [] => []
  | e :: ps => spacedDeclChars e.1 e.2.1 e.2.2.1 e.2.2.2 ++ spacedJoinChars ps

/-- Invariant of every token the cleaner records as emitted. -/
def GoodTok : Tok → Prop
  | Tok.data _ => True
  | Tok.endtag tag => tag ∈ _allowedTags ∧ tag ∉ _ignoredTags ∧ tag ∉ _voidElements
  | Tok.start tag D =>
      (tag ∈ _allowedTags ∨ tag ∈ _voidElements) ∧ tag ∉ _ignoredTags ∧
      (∀ kv ∈ D, kv.1 ∈ _allowedAttributes ∧ kv.2.isSome = true) ∧
      (D.map Prod.fst).Nodup ∧
      (tag = "img" → D.lookup "src" = none) ∧
      GoodStyle tag D

/-! ## Decidability of the token predicates -/

instance : (t : Tok) → Decidable (valuedTok t)
  | Tok.start _ attrs =>
    inferInstanceAs (Decidable (∀ kv ∈ attrs, kv.2.isSome = true))
  | Tok.endtag _ => inferInstanceAs (Decidable True)
  | Tok.data _ => inferInstanceAs (Decidable True)

instance : (t : Tok) → Decidable (noImgSrcTok t)
  | Tok.start tag attrs =>
    inferInstanceAs (Decidable (tag = "img" → ∀ kv ∈ attrs, ¬ kv.1 = "src"))
  | Tok.endtag _ => inferInstanceAs (Decidable True)
  | Tok.data _ => inferInstanceAs (Decidable True)

instance : (t : Tok) → Decidable (stableStyleTok t)
  | Tok.start _ attrs =>
    inferInstanceAs (Decidable (∀ kv ∈ styleRegexFindall (styleRawOf attrs),
      ¬ kv.2.toList.head? = some ' '))
  | Tok.endtag _ => inferInstanceAs (Decidable True)
  | Tok.data _ => inferInstanceAs (Decidable True)

instance : (t : Tok) → Decidable (disallowedStart t)
  | Tok.start tag _ =>
    inferInstanceAs (Decidable (tag ∉ _allowedTags ∧ tag ∉ _voidElements))
  | Tok.endtag _ => inferInstanceAs (Decidable False)
  | Tok.data _ => inferInstanceAs (Decidable False)

instance : (t : Tok) → Decidable (innerTok t)
  | Tok.start tag attrs =>
    inferInstanceAs (Decidable ((tag ∈ _allowedTags ∨ tag ∈ _voidElements) ∧
      ∀ kv ∈ attrs, kv.2.isSome = true))
  | Tok.endtag tag =>
    inferInstanceAs (Decidable (tag ∈ _allowedTags ∨ tag ∈ _voidElements))
  | Tok.data _ => inferInstanceAs (Decidable True)

instance : (c : Int) → (ts : List Tok) → Decidable (CountsOk c ts)
  | _, [] => inferInstanceAs (Decidable True)
  | c, t :: ts =>
    haveI := instDecidableCountsOk (c + countDelta t) ts
    inferInstanceAs (Decidable (0 ≤ c + countDelta t ∧
      CountsOk (c + countDelta t) ts))

instance (k : List Char) : Decidable (NiceKeyL k) :=
  inferInstanceAs (Decidable (k ≠ [] ∧ ∀ c ∈ k,
    c ≠ ' ' ∧ c ≠ ':' ∧ c ≠ ';' ∧ c ≠ '\n'))

instance (v : List Char) : Decidable (StableValL v) :=
  inferInstanceAs (Decidable (v ≠ [] ∧ ¬ v.head? = some ' ' ∧
    (∀ c ∈ v.drop 1, c ≠ ';') ∧ ∀ c ∈ v, c ≠ '\n'))

/-! ## Association-list lemmas -/

theorem bindE_ok {α β : Type} (a : α) (f : α → Except String β) :
    (do let x ← Except.ok a; f x : Except String β) = f a := rfl

theorem lookup_cons_str {α : Type} (a : String) (b : α) (d : List (String × α))
    (k : String) :
    (((a, b) :: d).lookup k) = if a = k then some b else d.lookup k := by
  by_cases h : a = k
  · subst h; simp [List.lookup]
  · have hb : (k == a) = false := beq_false_of_ne (fun he => h he.symm)
    simp [List.lookup, hb, h]

theorem lookup_append_none {α : Type} (d e : List (String × α)) (k : String)
    (h : d.lookup k = none) : ((d ++ e).lookup k) = e.lookup k := by
  induction d with
  | nil => simp
  | cons kv d ih =>
    obtain ⟨a, b⟩ := kv
    rw [lookup_cons_str] at h
    by_cases hk : a = k
    · simp [hk] at h
    · rw [List.cons_append, lookup_cons_str, if_neg hk]
      exact ih (by simpa [hk] using h)

theorem lookup_append_some {α : Type} (d e : List (String × α)) (k : String)
    (b : α) (h : d.lookup k = some b) : ((d ++ e).lookup k) = some b := by
  induction d with
  | nil => simp at h
  | cons kv d ih =>
    obtain ⟨a, c⟩ := kv
    rw [lookup_cons_str] at h
    by_cases hk : a = k
    · rw [List.cons_append, lookup_cons_str, if_pos hk]
      simpa [hk] using h
    · rw [List.cons_append, lookup_cons_str, if_neg hk]
      exact ih (by simpa [hk] using h)

theorem lookup_map_update {α : Type} (d : List (String × α)) (k : String) (v : α) :
    ((d.map fun kv => if kv.1 = k then (k, v) else kv).lookup k)
      = if (d.lookup k).isSome then some v else none := by
  induction d with
  | nil => simp
  | cons kv d ih =>
    obtain ⟨a, b⟩ := kv
    by_cases hk : a = k
    · simp only [List.map_cons, if_pos hk]
      rw [lookup_cons_str, lookup_cons_str]
      simp [hk]
    · simp only [List.map_cons, if_neg hk]
      rw [lookup_cons_str, lookup_cons_str, if_neg hk, if_neg hk, ih]

theorem lookup_map_update_ne {α : Type} (d : List (String × α)) (k k' : String)
    (v : α) (h : ¬ k' = k) :
    ((d.map fun kv => if kv.1 = k then (k, v) else kv).lookup k') = d.lookup k' := by
  induction d with
  | nil => simp
  | cons kv d ih =>
    obtain ⟨a, b⟩ := kv
    by_cases hk : a = k
    · simp only [List.map_cons, if_pos hk]
      rw [lookup_cons_str, lookup_cons_str]
      have h1 : ¬ k = k' := fun he => h he.symm
      have h2 : ¬ a = k' := by rw [hk]; exact h1
      rw [if_neg h1, if_neg h2, ih]
    · simp only [List.map_cons, if_neg hk]
      rw [lookup_cons_str, lookup_cons_str, ih]

theorem lookup_dictSet_self {α : Type} (d : List (String × α)) (k : String) (v : α) :
    ((dictSet d k v).lookup k) = some v := by
  unfold dictSet
  split
  · rename_i h
    rw [lookup_map_update, if_pos h]
  · rename_i h
    have hnone : d.lookup k = none := by
      cases hd : d.lookup k with
      | none => rfl
      | some b => rw [hd] at h; simp at h
    rw [lookup_append_none d _ k hnone, lookup_cons_str]
    simp

theorem lookup_dictSet_ne {α : Type} (d : List (String × α)) (k k' : String)
    (v : α) (h : ¬ k' = k) : ((dictSet d k v).lookup k') = d.lookup k' := by
  unfold dictSet
  split
  · exact lookup_map_update_ne d k k' v h
  · cases hd : d.lookup k' with
    | some b => exact lookup_append_some d _ k' b hd
    | none =>
      rw [lookup_append_none d _ k' hd, lookup_cons_str]
      have : ¬ k = k' := fun he => h he.symm
      simp [this]

theorem dictSet_fresh {α : Type} (d : List (String × α)) (k : String) (v : α)
    (h : d.lookup k = none) : dictSet d k v = d ++ [(k, v)] := by
  unfold dictSet
  rw [h]
  simp

theorem dictSet_keys_subset {α : Type} (d : List (String × α)) (k : String)
    (v : α) (kv' : String × α) (h : kv' ∈ dictSet d k v) :
    kv'.1 = k ∨ kv' ∈ d := by
  unfold dictSet at h
  split at h
  · obtain ⟨kv0, hkv0, heq⟩ := List.mem_map.mp h
    by_cases hk : kv0.1 = k
    · left; rw [if_pos hk] at heq; rw [← heq]
    · right; rw [if_neg hk] at heq; rwa [← heq]
  · rcases List.mem_append.mp h with h1 | h1
    · right; exact h1
    · left; simp at h1; rw [h1]

theorem dictSet_ne_nil {α : Type} (d : List (String × α)) (k : String) (v : α) :
    dictSet d k v ≠ [] := by
  unfold dictSet
  split
  · rename_i h
    intro hc
    cases d with
    | nil => simp at h
    | cons a d => simp at hc
  · intro hc
    have := congrArg List.length hc
    simp at this

/-! ## Step characterization -/

theorem ignored_mem_allowed {t : String} (h : t ∈ _ignoredTags) :
    t ∈ _allowedTags := by
  simp only [_ignoredTags, List.mem_cons, List.not_mem_nil, or_false] at h
  rcases h with h | h <;> subst h <;> decide

theorem ignored_not_void {t : String} (h : t ∈ _ignoredTags) :
    t ∉ _voidElements := by
  simp only [_ignoredTags, List.mem_cons, List.not_mem_nil, or_false] at h
  rcases h with h | h <;> subst h <;> decide

theorem pushTag_spec (s : CleanerState) (tag : String)
    (attrs : List (String × Option String)) :
    (pushTag s tag).nonAllowedTagCountInStack
        = s.nonAllowedTagCountInStack + countDelta (Tok.start tag attrs) ∧
    (pushTag s tag).output = s.output ∧
    (pushTag s tag).emitted = s.emitted ∧
    (pushTag s tag).warnings = s.warnings := by
  unfold pushTag countDelta
  by_cases hv : tag ∈ _voidElements
  · simp [hv]
  · by_cases ha : tag ∈ _allowedTags <;> simp [hv, ha]

theorem popState_fields (s : CleanerState) (tag : String) :
    (popState s tag).nonAllowedTagCountInStack = s.nonAllowedTagCountInStack ∧
    (popState s tag).output = s.output ∧
    (popState s tag).emitted = s.emitted ∧
    (popState s tag).warnings = s.warnings := by
  unfold popState
  dsimp only []
  split <;> simp

theorem stepE_err_spec (o : Oracles) (s : CleanerState) (t : Tok) (e : String)
    (h : pureStepE o t = Except.error e) : stepE o s t = Except.error e := by
  cases t with
  | start tag attrs =>
    simp only [pureStepE] at h
    simp only [stepE, handle_starttag]
    by_cases hig : tag ∈ _ignoredTags
    · rw [if_pos hig] at h; exact absurd h (by simp)
    · rw [if_neg hig] at h
      rw [if_neg hig]
      cases hp : pureStartE o tag attrs with
      | error e2 => rw [hp] at h; simp at h; simp [h]
      | ok r => rw [hp] at h; obtain ⟨D, frag, w⟩ := r; simp at h
  | endtag tag => simp only [pureStepE] at h; simp at h
  | data d => simp only [pureStepE] at h; simp at h

theorem stepE_ok_spec (o : Oracles) (s : CleanerState) (t : Tok) (info : StepInfo)
    (h : pureStepE o t = Except.ok info) :
    ∃ s', stepE o s t = Except.ok s' ∧
      s'.nonAllowedTagCountInStack = s.nonAllowedTagCountInStack + info.delta ∧
      s'.output = s.output ++
        (if s.nonAllowedTagCountInStack + info.delta = 0 then info.frags else []) ∧
      s'.emitted = s.emitted ++
        (if s.nonAllowedTagCountInStack + info.delta = 0 then info.etoks else []) ∧
      s'.warnings = s.warnings ++ info.warns := by
  cases t with
  | data d =>
    simp only [pureStepE] at h
    simp only [Except.ok.injEq] at h
    subst h
    refine ⟨writeDataT s d (Tok.data d), rfl, ?_⟩
    unfold writeDataT
    by_cases hc : s.nonAllowedTagCountInStack = 0 <;> simp [hc]
  | endtag tag =>
    simp only [pureStepE] at h
    simp only [Except.ok.injEq] at h
    subst h
    refine ⟨handle_endtag s tag, rfl, ?_⟩
    unfold handle_endtag
    by_cases hv : tag ∈ _voidElements
    · simp [hv, countDelta]
    · obtain ⟨hc, ho, he, hw⟩ := popState_fields s tag
      by_cases ha : tag ∈ _allowedTags
      · by_cases hig : tag ∈ _ignoredTags
        · simp only [if_neg hv, if_pos ha, if_pos hig, countDelta]
          refine ⟨by rw [hc]; ring, ?_, ?_, by simp [hw]⟩
          · simp [ha, hv, hig, ho]
          · simp [ha, hv, hig, he]
        · simp only [if_neg hv, if_pos ha, if_neg hig, countDelta]
          unfold writeDataT
          rw [hc]
          by_cases hz : s.nonAllowedTagCountInStack = 0
          · simp [hz, hv, ha, hig, ho, he, hw]
          · simp [hz, hv, ha, hig, ho, he, hw, hc]
      · simp only [if_neg hv, if_neg ha, countDelta]
        refine ⟨by rw [hc]; omega, ?_, ?_, by simp [hw]⟩
        · simp [hv, ha, ho]
        · simp [hv, ha, he]
  | start tag attrs =>
    simp only [pureStepE] at h
    simp only [stepE, handle_starttag]
    by_cases hig : tag ∈ _ignoredTags
    · rw [if_pos hig] at h
      simp only [Except.ok.injEq] at h
      subst h
      rw [if_pos hig]
      obtain ⟨hc, ho, he, hw⟩ := pushTag_spec s tag attrs
      exact ⟨pushTag s tag, rfl, hc, by simp [ho], by simp [he], by simp [hw]⟩
    · rw [if_neg hig] at h
      rw [if_neg hig]
      cases hp : pureStartE o tag attrs with
      | error e2 => rw [hp] at h; simp at h
      | ok r =>
        obtain ⟨D, frag, w⟩ := r
        rw [hp] at h
        simp only [Except.ok.injEq] at h
        subst h
        obtain ⟨hc, ho, he, hw⟩ := pushTag_spec s tag attrs
        refine ⟨_, rfl, ?_⟩
        unfold writeDataT
        rw [hc]
        by_cases hz : s.nonAllowedTagCountInStack
            + countDelta (Tok.start tag attrs) = 0
        · simp [hz, ho, he, hw]
        · simp [hz, ho, he, hw]

/-! ## Totality of the filter on valued attributes -/

theorem mem_dictSet {α : Type} {d : List (String × α)} {k : String} {v : α}
    {kv' : String × α} (h : kv' ∈ dictSet d k v) : kv' = (k, v) ∨ kv' ∈ d := by
  unfold dictSet at h
  split at h
  · obtain ⟨kv0, hkv0, heq⟩ := List.mem_map.mp h
    by_cases hk : kv0.1 = k
    · left; rw [if_pos hk] at heq; exact heq.symm
    · right; rw [if_neg hk] at heq; rwa [← heq]
  · rcases List.mem_append.mp h with h1 | h1
    · right; exact h1
    · left; simpa using h1

theorem mem_dictDel {α : Type} {d : List (String × α)} {k : String}
    {kv' : String × α} (h : kv' ∈ dictDel d k) : kv' ∈ d :=
  List.mem_of_mem_filter h

theorem lookup_mem {α : Type} {d : List (String × α)} {k : String} {v : α}
    (h : d.lookup k = some v) : (k, v) ∈ d := by
  induction d with
  | nil => simp at h
  | cons kv d ih =>
    obtain ⟨a, b⟩ := kv
    rw [lookup_cons_str] at h
    by_cases hk : a = k
    · rw [if_pos hk] at h
      simp only [Option.some.injEq] at h
      rw [hk, h]
      exact List.mem_cons_self _ _
    · rw [if_neg hk] at h
      exact List.mem_cons_of_mem _ (ih h)

theorem lookup_isSome_dictSet {α : Type} (d : List (String × α))
    (k k' : String) (v : α) (h : (d.lookup k').isSome = true) :
    (((dictSet d k v).lookup k').isSome) = true := by
  by_cases hk : k' = k
  · subst hk; rw [lookup_dictSet_self]; rfl
  · rw [lookup_dictSet_ne d k k' v hk]; exact h

theorem parseAttrs_style_isSome (attrs : List (String × Option String)) :
    (((parseAttrs attrs).lookup "style").isSome) = true := by
  unfold parseAttrs
  have base : ∀ (L : List (String × Option String))
      (d : List (String × Option String)),
      ((d.lookup "style").isSome) = true →
      (((L.foldl (fun d kv =>
          if kv.1 ∈ _allowedAttributes then dictSet d kv.1 kv.2 else d) d).lookup
        "style").isSome) = true := by
    intro L
    induction L with
    | nil => intro d h; exact h
    | cons a L ih =>
      intro d h
      simp only [List.foldl_cons]
      apply ih
      split
      · exact lookup_isSome_dictSet d a.1 "style" a.2 h
      · exact h
  apply base
  simp [lookup_cons_str]

theorem parseAttrs_mem {attrs : List (String × Option String)}
    {kv' : String × Option String} (h : kv' ∈ parseAttrs attrs) :
    kv' = ("style", some "") ∨ kv' ∈ attrs := by
  unfold parseAttrs at h
  have base : ∀ (L : List (String × Option String))
      (d : List (String × Option String)),
      kv' ∈ L.foldl (fun d kv =>
        if kv.1 ∈ _allowedAttributes then dictSet d kv.1 kv.2 else d) d →
      kv' ∈ d ∨ kv' ∈ L := by
    intro L
    induction L with
    | nil => intro d h; exact Or.inl h
    | cons a L ih =>
      intro d h
      simp only [List.foldl_cons] at h
      rcases ih _ h with h1 | h1
      · split at h1
        · rcases mem_dictSet h1 with h2 | h2
          · right; exact List.mem_cons.mpr (Or.inl h2)
          · left; exact h2
        · left; exact h1
      · right; exact List.mem_cons_of_mem _ h1
  rcases base attrs _ h with h1 | h1
  · left; simpa using h1
  · right; exact h1

theorem parseAttrs_values {attrs : List (String × Option String)}
    (hv : ∀ kv ∈ attrs, kv.2.isSome = true) :
    ∀ kv ∈ parseAttrs attrs, kv.2.isSome = true := by
  intro kv h
  rcases parseAttrs_mem h with h1 | h1
  · rw [h1]; rfl
  · exact hv kv h1

theorem attrPartsE_ok {d : List (String × Option String)}
    (hv : ∀ kv ∈ d, kv.2.isSome = true) :
    ∃ parts, attrPartsE d = Except.ok parts := by
  induction d with
  | nil => exact ⟨[], rfl⟩
  | cons kv d ih =>
    obtain ⟨parts, hparts⟩ := ih (fun kv h => hv kv (List.mem_cons_of_mem _ h))
    have hkv := hv kv (List.mem_cons_self _ _)
    cases h2 : kv.2 with
    | none => rw [h2] at hkv; simp at hkv
    | some v =>
      refine ⟨(kv.1 ++ "=\"" ++ cgiEscape v ++ "\"") :: parts, ?_⟩
      simp only [attrPartsE, h2, hparts]
      rfl

theorem attrStrE_ok {d : List (String × Option String)}
    (hv : ∀ kv ∈ d, kv.2.isSome = true) :
    ∃ str, attrStrE d = Except.ok str := by
  unfold attrStrE
  by_cases he : d.isEmpty
  · exact ⟨"", by rw [if_pos he]⟩
  · obtain ⟨parts, hparts⟩ := attrPartsE_ok hv
    refine ⟨" " ++ String.intercalate " " parts, ?_⟩
    rw [if_neg he]
    simp only [hparts]
    rfl

theorem downloadMediaE_ok (o : Oracles) (u : String)
    (hnet : ∀ u, o.net u = NetResult.urlError) :
    ∃ res, downloadMediaE o u = Except.ok res := by
  unfold downloadMediaE
  dsimp only []
  split
  · exact ⟨_, rfl⟩
  · rw [hnet u]
    exact ⟨none, rfl⟩

theorem styleRawE_ok (attrs : List (String × Option String))
    (hv : ∀ kv ∈ attrs, kv.2.isSome = true) :
    ∃ v, styleRawE attrs = Except.ok v := by
  have hsty := parseAttrs_style_isSome attrs
  have hval := parseAttrs_values hv
  unfold styleRawE
  cases hst : (parseAttrs attrs).lookup "style" with
  | none => rw [hst] at hsty; simp at hsty
  | some sv =>
    cases sv with
    | none => have := hval _ (lookup_mem hst); simp at this
    | some v => exact ⟨v, rfl⟩

theorem attrDictAfterStyle_values (tag : String)
    (attrs : List (String × Option String)) (styleRaw : String)
    (hv : ∀ kv ∈ attrs, kv.2.isSome = true) :
    ∀ kv ∈ attrDictAfterStyle tag attrs styleRaw, kv.2.isSome = true := by
  intro kv h
  have hval := parseAttrs_values hv
  unfold attrDictAfterStyle at h
  split at h
  · exact hval kv (mem_dictDel h)
  · rcases mem_dictSet h with h1 | h1
    · rw [h1]; rfl
    · exact hval kv h1

theorem imgStepE_ok (o : Oracles) (tag : String)
    (D : List (String × Option String))
    (hval : ∀ kv ∈ D, kv.2.isSome = true)
    (hnet : ∀ u, o.net u = NetResult.urlError) :
    ∃ r, imgStepE o tag D = Except.ok r ∧ ∀ kv ∈ r.1, kv.2.isSome = true := by
  unfold imgStepE
  by_cases himg : tag = "img"
  · rw [if_pos himg]
    cases hsrc : D.lookup "src" with
    | none => exact ⟨(D, []), rfl, hval⟩
    | some vOpt =>
      cases vOpt with
      | none => have := hval _ (lookup_mem hsrc); simp at this
      | some imageUrl =>
        obtain ⟨res, hres⟩ := downloadMediaE_ok o imageUrl hnet
        cases res with
        | none =>
          refine ⟨(D, ["Failed to download " ++ imageUrl]), ?_, hval⟩
          simp only [hres]
          rfl
        | some b =>
          cases b with
          | nil =>
            refine ⟨(D, ["Failed to download " ++ imageUrl]), ?_, hval⟩
            simp only [hres]
            rfl
          | cons b bs =>
            refine ⟨(dictSet D "src" (some (o.save (b :: bs))), []), ?_, ?_⟩
            · simp only [hres]
              rfl
            · intro kv h
              rcases mem_dictSet h with h1 | h1
              · rw [h1]; rfl
              · exact hval kv h1
  · rw [if_neg himg]
    exact ⟨(D, []), rfl, hval⟩

theorem pureStartE_ok (o : Oracles) (tag : String)
    (attrs : List (String × Option String))
    (hv : ∀ kv ∈ attrs, kv.2.isSome = true)
    (hnet : ∀ u, o.net u = NetResult.urlError) :
    ∃ r, pureStartE o tag attrs = Except.ok r := by
  obtain ⟨styleRaw, hsr⟩ := styleRawE_ok attrs hv
  have hval1 := attrDictAfterStyle_values tag attrs styleRaw hv
  obtain ⟨r, hr, hrval⟩ := imgStepE_ok o tag (attrDictAfterStyle tag attrs styleRaw) hval1 hnet
  obtain ⟨str, hstr⟩ := attrStrE_ok hrval
  refine ⟨(r.1, "<" ++ tag ++ str ++ ">", r.2), ?_⟩
  simp only [pureStartE, hsr, hr, hstr, bindE_ok]

theorem stepE_total (o : Oracles) (s : CleanerState) (t : Tok)
    (hv : valuedTok t) (hnet : ∀ u, o.net u = NetResult.urlError) :
    ∃ s', stepE o s t = Except.ok s' := by
  cases t with
  | data d => exact ⟨_, rfl⟩
  | endtag tag => exact ⟨_, rfl⟩
  | start tag attrs =>
    simp only [stepE, handle_starttag]
    by_cases hig : tag ∈ _ignoredTags
    · rw [if_pos hig]; exact ⟨_, rfl⟩
    · rw [if_neg hig]
      obtain ⟨r, hr⟩ := pureStartE_ok o tag attrs hv hnet
      rw [hr]
      exact ⟨_, rfl⟩

theorem processE_cons (o : Oracles) (s : CleanerState) (t : Tok) (ts : List Tok) :
    processE o s (t :: ts)
      = (stepE o s t).bind fun s1 => processE o s1 ts := rfl

theorem processE_append (o : Oracles) (s : CleanerState) (xs ys : List Tok) :
    processE o s (xs ++ ys)
      = (processE o s xs).bind fun s1 => processE o s1 ys := by
  induction xs generalizing s with
  | nil => rfl
  | cons t xs ih =>
    rw [List.cons_append, processE_cons, processE_cons]
    cases h : stepE o s t with
    | error e => rfl
    | ok s1 => exact ih s1

theorem processE_total (o : Oracles) (toks : List Tok) (s : CleanerState)
    (hv : ∀ t ∈ toks, valuedTok t) (hnet : ∀ u, o.net u = NetResult.urlError) :
    ∃ s', processE o s toks = Except.ok s' := by
  induction toks generalizing s with
  | nil => exact ⟨s, rfl⟩
  | cons t ts ih =>
    obtain ⟨s1, hs1⟩ := stepE_total o s t (hv t (List.mem_cons_self _ _)) hnet
    obtain ⟨s', hs'⟩ := ih s1 (fun t h => hv t (List.mem_cons_of_mem _ h))
    exact ⟨s', by rw [processE_cons, hs1]; exact hs'⟩

/-! ## Run lemmas: the counter and the output determine emission -/

theorem run_congr (o : Oracles) (P : List Tok) :
    ∀ (u v u' : CleanerState),
    u.nonAllowedTagCountInStack = v.nonAllowedTagCountInStack →
    u.output = v.output →
    processE o u P = Except.ok u' →
    ∃ v', processE o v P = Except.ok v' ∧
      v'.nonAllowedTagCountInStack = u'.nonAllowedTagCountInStack ∧
      v'.output = u'.output := by
  induction P with
  | nil =>
    intro u v u' hc ho hr
    simp only [processE] at hr
    simp only [Except.ok.injEq] at hr
    subst hr
    exact ⟨v, rfl, hc.symm, ho.symm⟩
  | cons t P ih =>
    intro u v u' hc ho hr
    rw [processE_cons] at hr
    cases hstep : stepE o u t with
    | error e => rw [hstep] at hr; exact absurd hr (by simp [Except.bind])
    | ok u1 =>
      rw [hstep] at hr
      simp only [Except.bind] at hr
      cases hp : pureStepE o t with
      | error e =>
        have := stepE_err_spec o u t e hp
        rw [hstep] at this
        exact absurd this (by simp)
      | ok info =>
        obtain ⟨u1', hu1', huc, huo, _, _⟩ := stepE_ok_spec o u t info hp
        rw [hstep] at hu1'
        simp only [Except.ok.injEq] at hu1'
        subst hu1'
        obtain ⟨v1, hv1, hvc, hvo, _, _⟩ := stepE_ok_spec o v t info hp
        obtain ⟨v', hv', hc', ho'⟩ := ih u1 v1 u'
          (by rw [huc, hvc, hc]) (by rw [huo, hvo, ho, hc]) hr
        exact ⟨v', by rw [processE_cons, hv1]; exact hv', hc', ho'⟩

theorem innerTok_valued {t : Tok} (h : innerTok t) : valuedTok t := by
  cases t with
  | start tag attrs => exact h.2
  | endtag tag => trivial
  | data d => trivial

theorem innerTok_delta {t : Tok} (h : innerTok t) : countDelta t = 0 := by
  cases t with
  | start tag attrs =>
    unfold countDelta
    rcases h.1 with ha | hv
    · by_cases hvv : tag ∈ _voidElements <;> simp [hvv, ha]
    · simp [hv]
  | endtag tag =>
    unfold countDelta
    rcases h with ha | hv
    · by_cases hvv : tag ∈ _voidElements <;> simp [hvv, ha]
    · simp [hv]
  | data d => rfl

theorem suppressed_run (o : Oracles) (P : List Tok)
    (hP : ∀ t ∈ P, innerTok t) (hnet : ∀ u, o.net u = NetResult.urlError) :
    ∀ s, ¬ s.nonAllowedTagCountInStack = 0 →
    ∃ s', processE o s P = Except.ok s' ∧
      s'.nonAllowedTagCountInStack = s.nonAllowedTagCountInStack ∧
      s'.output = s.output := by
  induction P with
  | nil => intro s hs; exact ⟨s, rfl, rfl, rfl⟩
  | cons t P ih =>
    intro s hs
    have ht := hP t (List.mem_cons_self _ _)
    obtain ⟨s1, hs1⟩ := stepE_total o s t (innerTok_valued ht) hnet
    cases hp : pureStepE o t with
    | error e =>
      have := stepE_err_spec o s t e hp
      rw [hs1] at this
      exact absurd this (by simp)
    | ok info =>
      obtain ⟨s1', hs1', hc, ho, _, _⟩ := stepE_ok_spec o s t info hp
      rw [hs1] at hs1'
      simp only [Except.ok.injEq] at hs1'
      subst hs1'
      have hd : info.delta = 0 := by
        have h2 := innerTok_delta ht
        cases t with
        | start tag attrs =>
          simp only [pureStepE] at hp
          split at hp
          · simp only [Except.ok.injEq] at hp; rw [← hp]; exact h2
          · cases hps : pureStartE o tag attrs with
            | error e => rw [hps] at hp; simp at hp
            | ok r =>
              obtain ⟨D, frag, w⟩ := r
              rw [hps] at hp
              simp only [Except.ok.injEq] at hp
              rw [← hp]
              exact h2
        | endtag tag =>
          simp only [pureStepE] at hp
          simp only [Except.ok.injEq] at hp
          rw [← hp]
          exact h2
        | data d =>
          simp only [pureStepE] at hp
          simp only [Except.ok.injEq] at hp
          rw [← hp]
      rw [hd] at hc ho
      simp only [add_zero] at hc ho
      rw [if_neg hs] at ho
      simp only [List.append_nil] at ho
      obtain ⟨s', hs', hc', ho'⟩ := ih (fun t h => hP t (List.mem_cons_of_mem _ h)) s1
        (by rw [hc]; exact hs)
      exact ⟨s', by rw [processE_cons, hs1]; exact hs',
        by rw [hc', hc], by rw [ho', ho]⟩

theorem delta_nonpos_of_not_disallowed {t : Tok} (h : ¬ disallowedStart t) :
    countDelta t ≤ 0 := by
  cases t with
  | start tag attrs =>
    unfold disallowedStart at h
    unfold countDelta
    by_cases hvv : tag ∈ _voidElements
    · simp [hvv]
    · have ha : tag ∈ _allowedTags := by
        by_contra hna
        exact h ⟨hna, hvv⟩
      simp [hvv, ha]
  | endtag tag =>
    unfold countDelta
    by_cases hvv : tag ∈ _voidElements
    · simp [hvv]
    · by_cases ha : tag ∈ _allowedTags <;> simp [hvv, ha]
  | data d => simp [countDelta]

theorem negative_run (o : Oracles) (P : List Tok)
    (hP : ∀ t ∈ P, valuedTok t ∧ ¬ disallowedStart t)
    (hnet : ∀ u, o.net u = NetResult.urlError) :
    ∀ s, s.nonAllowedTagCountInStack < 0 →
    ∃ s', processE o s P = Except.ok s' ∧ s'.output = s.output ∧
      s'.nonAllowedTagCountInStack < 0 := by
  induction P with
  | nil => intro s hs; exact ⟨s, rfl, rfl, hs⟩
  | cons t P ih =>
    intro s hs
    obtain ⟨htv, htd⟩ := hP t (List.mem_cons_self _ _)
    obtain ⟨s1, hs1⟩ := stepE_total o s t htv hnet
    cases hp : pureStepE o t with
    | error e =>
      have := stepE_err_spec o s t e hp
      rw [hs1] at this
      exact absurd this (by simp)
    | ok info =>
      obtain ⟨s1', hs1', hc, ho, _, _⟩ := stepE_ok_spec o s t info hp
      rw [hs1] at hs1'
      simp only [Except.ok.injEq] at hs1'
      subst hs1'
      have hd : info.delta = countDelta t := by
        cases t with
        | start tag attrs =>
          simp only [pureStepE] at hp
          split at hp
          · simp only [Except.ok.injEq] at hp; rw [← hp]
          · cases hps : pureStartE o tag attrs with
            | error e => rw [hps] at hp; simp at hp
            | ok r =>
              obtain ⟨D, frag, w⟩ := r
              rw [hps] at hp
              simp only [Except.ok.injEq] at hp
              rw [← hp]
        | endtag tag =>
          simp only [pureStepE] at hp
          simp only [Except.ok.injEq] at hp
          rw [← hp]
        | data d =>
          simp only [pureStepE] at hp
          simp only [Except.ok.injEq] at hp
          rw [← hp]
          rfl
      have hneg : s1.nonAllowedTagCountInStack < 0 := by
        rw [hc, hd]
        have := delta_nonpos_of_not_disallowed htd
        omega
      have hz : ¬ s.nonAllowedTagCountInStack + info.delta = 0 := by
        rw [hd]
        have := delta_nonpos_of_not_disallowed htd
        omega
      rw [if_neg hz] at ho
      simp only [List.append_nil] at ho
      obtain ⟨s', hs', ho', hc'⟩ := ih (fun t h => hP t (List.mem_cons_of_mem _ h)) s1 hneg
      exact ⟨s', by rw [processE_cons, hs1]; exact hs', by rw [ho', ho], hc'⟩

/-! ## Override fold lemmas -/

theorem lookup_foldl_dictSet_not_mem {α : Type} {L : List (String × α)}
    {k : String} (h : ∀ kv ∈ L, ¬ kv.1 = k) :
    ∀ d : List (String × α),
    ((L.foldl (fun d kv => dictSet d kv.1 kv.2) d).lookup k) = d.lookup k := by
  induction L with
  | nil => intro d; rfl
  | cons a L ih =>
    intro d
    simp only [List.foldl_cons]
    rw [ih (fun kv hm => h kv (List.mem_cons_of_mem _ hm))]
    exact lookup_dictSet_ne d a.1 k a.2
      (fun he => h a (List.mem_cons_self _ _) he.symm)

theorem lookup_foldl_dictSet_mem {α : Type} {L : List (String × α)}
    (hnd : (L.map Prod.fst).Nodup) {k : String} {v : α} (hmem : (k, v) ∈ L) :
    ∀ d : List (String × α),
    ((L.foldl (fun d kv => dictSet d kv.1 kv.2) d).lookup k) = some v := by
  induction L with
  | nil => simp at hmem
  | cons a L ih =>
    intro d
    simp only [List.foldl_cons]
    rcases List.mem_cons.mp hmem with h1 | h1
    · have hk : a.1 = k := by rw [← h1]
      have hnotin : ∀ kv ∈ L, ¬ kv.1 = k := by
        intro kv hm he
        simp only [List.map_cons, List.nodup_cons] at hnd
        exact hnd.1 (by rw [hk, ← he]; exact List.mem_map_of_mem _ hm)
      rw [lookup_foldl_dictSet_not_mem hnotin]
      have : dictSet d a.1 a.2 = dictSet d k v := by rw [← h1]
      rw [this, lookup_dictSet_self]
    · simp only [List.map_cons, List.nodup_cons] at hnd
      exact ih hnd.2 h1 _

/-! ## Further step helpers -/

theorem pureStepE_delta (o : Oracles) (t : Tok) (info : StepInfo)
    (h : pureStepE o t = Except.ok info) : info.delta = countDelta t := by
  cases t with
  | start tag attrs =>
    simp only [pureStepE] at h
    split at h
    · simp only [Except.ok.injEq] at h; rw [← h]
    · cases hps : pureStartE o tag attrs with
      | error e => rw [hps] at h; simp at h
      | ok r =>
        obtain ⟨D, frag, w⟩ := r
        rw [hps] at h
        simp only [Except.ok.injEq] at h
        rw [← h]
  | endtag tag =>
    simp only [pureStepE] at h
    simp only [Except.ok.injEq] at h
    rw [← h]
  | data d =>
    simp only [pureStepE] at h
    simp only [Except.ok.injEq] at h
    rw [← h]
    rfl

theorem lookup_dictDel_ne {α : Type} (d : List (String × α)) (k k' : String)
    (h : ¬ k = k') : ((dictDel d k').lookup k) = d.lookup k := by
  induction d with
  | nil => rfl
  | cons kv d ih =>
    obtain ⟨a, b⟩ := kv
    unfold dictDel
    by_cases hk : a = k'
    · rw [List.filter_cons_of_neg (by simp [hk])]
      rw [lookup_cons_str, if_neg (by rw [hk]; exact fun he => h he.symm)]
      exact ih
    · rw [List.filter_cons_of_pos (by simp [hk])]
      rw [lookup_cons_str, lookup_cons_str]
      unfold dictDel at ih
      rw [ih]

theorem lookup_foldl_attrStep_not_mem {L : List (String × Option String)}
    {k : String} (h : ∀ kv ∈ L, ¬ kv.1 = k) :
    ∀ d : List (String × Option String),
    ((L.foldl (fun d kv =>
        if kv.1 ∈ _allowedAttributes then dictSet d kv.1 kv.2 else d) d).lookup k)
      = d.lookup k := by
  induction L with
  | nil => intro d; rfl
  | cons a L ih =>
    intro d
    simp only [List.foldl_cons]
    rw [ih (fun kv hm => h kv (List.mem_cons_of_mem _ hm))]
    split
    · exact lookup_dictSet_ne d a.1 k a.2
        (fun he => h a (List.mem_cons_self _ _) he.symm)
    · rfl

/-- A disallowed-tag block `<d> allowed-content </d>` entered with the
counter at zero contributes nothing to the output and restores the
counter. -/
theorem blockRun (o : Oracles) (hnet : ∀ u, o.net u = NetResult.urlError)
    (d : String) (attrs : List (String × Option String)) (inner : List Tok)
    (hda : d ∉ _allowedTags) (hdv : d ∉ _voidElements)
    (hattrs : ∀ kv ∈ attrs, kv.2.isSome = true)
    (hinner : ∀ t ∈ inner, innerTok t)
    (s : CleanerState) (hs : s.nonAllowedTagCountInStack = 0) :
    ∃ s3, processE o s (Tok.start d attrs :: (inner ++ [Tok.endtag d]))
        = Except.ok s3 ∧
      s3.nonAllowedTagCountInStack = 0 ∧ s3.output = s.output := by
  have hdelta : countDelta (Tok.start d attrs) = 1 := by
    simp only [countDelta]
    rw [if_neg hdv, if_neg hda]
  obtain ⟨sA, hA⟩ := stepE_total o s (Tok.start d attrs) hattrs hnet
  cases hp : pureStepE o (Tok.start d attrs) with
  | error e =>
    have := stepE_err_spec o s _ e hp
    rw [hA] at this
    exact absurd this (by simp)
  | ok info =>
    obtain ⟨sA', hA', hAc, hAo, _, _⟩ := stepE_ok_spec o s _ info hp
    rw [hA] at hA'
    simp only [Except.ok.injEq] at hA'
    subst hA'
    have hd := pureStepE_delta o _ info hp
    rw [hd, hdelta] at hAc hAo
    rw [hs] at hAc hAo
    have hz : ¬ (0 : Int) + 1 = 0 := by decide
    rw [if_neg hz] at hAo
    simp only [List.append_nil] at hAo
    obtain ⟨sB, hB, hBc, hBo⟩ := suppressed_run o inner hinner hnet sA
      (by rw [hAc]; decide)
    have hp2 : pureStepE o (Tok.endtag d)
        = Except.ok ⟨-1, [], [], []⟩ := by
      simp [pureStepE, countDelta, hdv, hda]
    obtain ⟨sC, hC, hCc, hCo, _, _⟩ := stepE_ok_spec o sB _ _ hp2
    refine ⟨sC, ?_, ?_, ?_⟩
    · rw [processE_cons, hA]
      simp only [Except.bind]
      rw [processE_append, hB]
      simp only [Except.bind]
      rw [processE_cons, hC]
      rfl
    · rw [hCc, hBc, hAc]; decide
    · rw [hCo, hBo, hAo]
      rw [hBc, hAc]
      simp

/-! ## Exact-match lemmas for the style regex -/

theorem skipSpacesColon_exact (m : Nat) (t : List Char) :
    skipSpacesColon (List.replicate m ' ' ++ ':' :: t) = some t := by
  induction m with
  | zero =>
    simp only [List.replicate, List.nil_append]
    unfold skipSpacesColon
    rw [if_neg (by decide), if_pos rfl]
  | succ m ih =>
    simp only [List.replicate, List.cons_append]
    unfold skipSpacesColon
    rw [if_pos rfl]
    exact ih

theorem matchValue_exact (v r : List Char) (hne : v ≠ [])
    (hsemi : ∀ c ∈ v.drop 1, c ≠ ';') (hnl : ∀ c ∈ v, c ≠ '\n') :
    matchValue (v ++ ';' :: r) = some (v, r) := by
  induction v with
  | nil => exact absurd rfl hne
  | cons c v ih =>
    rw [List.cons_append]
    unfold matchValue
    rw [if_neg (hnl c (List.mem_cons_self _ _))]
    cases v with
    | nil =>
      rw [if_pos (by rfl)]
      rfl
    | cons c2 v2 =>
      have hc2 : c2 ≠ ';' := hsemi c2 (by simp)
      rw [if_neg (by
        rw [List.cons_append, List.head?_cons]
        simp [hc2])]
      rw [ih (by simp)
        (by
          intro x hx
          apply hsemi x
          simp only [List.drop_one, List.tail_cons] at hx ⊢
          exact List.mem_cons_of_mem _ hx)
        (fun x hx => hnl x (List.mem_cons_of_mem _ hx))]

theorem matchSpacesValue_exact (n : Nat) (v r : List Char) (hne : v ≠ [])
    (hsp : ¬ v.head? = some ' ')
    (hsemi : ∀ c ∈ v.drop 1, c ≠ ';') (hnl : ∀ c ∈ v, c ≠ '\n') :
    matchSpacesValue (List.replicate n ' ' ++ v ++ ';' :: r) = some (v, r) := by
  induction n with
  | zero =>
    simp only [List.replicate, List.nil_append]
    cases v with
    | nil => exact absurd rfl hne
    | cons c v2 =>
      have hc : ¬ c = ' ' := by
        intro he
        exact hsp (by rw [List.head?_cons, he])
      rw [List.cons_append]
      unfold matchSpacesValue
      rw [if_neg hc, ← List.cons_append]
      exact matchValue_exact _ r hne hsemi hnl
  | succ n ih =>
    simp only [List.replicate, List.cons_append]
    unfold matchSpacesValue
    rw [if_pos rfl]
    simp only [← List.cons_append] at ih ⊢
    rw [ih]

theorem matchKeyAux_exact (k : List Char) (m n : Nat) (v r : List Char)
    (hk : NiceKeyL k)
    (hv : v ≠ [] ∧ ¬ v.head? = some ' ' ∧ (∀ c ∈ v.drop 1, c ≠ ';') ∧
      ∀ c ∈ v, c ≠ '\n') :
    ∀ acc, matchKeyAux acc
      (k ++ (List.replicate m ' ' ++ ':' :: (List.replicate n ' ' ++ v ++ ';' :: r)))
      = some (String.mk (acc ++ k), String.mk v, r) := by
  obtain ⟨hkne, hkc⟩ := hk
  induction k with
  | nil => exact absurd rfl hkne
  | cons c k ih =>
    intro acc
    rw [List.cons_append]
    unfold matchKeyAux
    rw [if_neg (hkc c (List.mem_cons_self _ _)).2.2.2]
    cases k with
    | nil =>
      simp only [List.nil_append, skipSpacesColon_exact,
        matchSpacesValue_exact n v r hv.1 hv.2.1 hv.2.2.1 hv.2.2.2]
    | cons c2 k2 =>
      have hc2 := hkc c2 (by simp)
      have hskip : skipSpacesColon ((c2 :: k2) ++
          (List.replicate m ' ' ++ ':' ::
            (List.replicate n ' ' ++ v ++ ';' :: r))) = none := by
        rw [List.cons_append]
        unfold skipSpacesColon
        rw [if_neg hc2.1, if_neg hc2.2.1]
      rw [hskip]
      rw [ih (by simp) (fun x hx => hkc x (List.mem_cons_of_mem _ hx)) (acc ++ [c])]
      simp

theorem findallAux_round_trip
    (ps : List (List Char × List Char × Nat × Nat))
    (h : ∀ e ∈ ps, NiceKeyL e.1 ∧ StableValL e.2.1) :
    ∀ fuel, (spacedJoinChars ps).length ≤ fuel →
    findallAux fuel (spacedJoinChars ps)
      = ps.map (fun e => (String.mk e.1, String.mk e.2.1)) := by
  induction ps with
  | nil =>
    intro fuel _
    cases fuel <;> rfl
  | cons e ps ih =>
    intro fuel hfuel
    obtain ⟨k, v, m, n⟩ := e
    obtain ⟨hk, hv⟩ := h _ (List.mem_cons_self _ _)
    have hshape : spacedJoinChars ((k, v, m, n) :: ps)
        = k ++ (List.replicate m ' ' ++ ':' ::
            (List.replicate n ' ' ++ v ++ ';' :: spacedJoinChars ps)) := by
      show spacedDeclChars k v m n ++ spacedJoinChars ps = _
      unfold spacedDeclChars
      simp [List.append_assoc]
    rw [hshape] at hfuel ⊢
    cases hkcase : k with
    | nil => exact absurd hkcase hk.1
    | cons c k2 =>
      subst hkcase
      have hstep := matchKeyAux_exact (c :: k2) m n v (spacedJoinChars ps) hk
        ⟨hv.1, hv.2.1, hv.2.2.1, hv.2.2.2⟩ []
      rw [List.cons_append] at hstep
      simp only [List.nil_append] at hstep
      rw [List.cons_append] at hfuel ⊢
      cases fuel with
      | zero => simp at hfuel
      | succ f =>
        unfold findallAux
        rw [hstep]
        simp only [List.map_cons]
        congr 1
        apply ih (fun e he => h e (List.mem_cons_of_mem _ he)) f
        simp only [List.length_cons, List.length_append] at hfuel
        omega

/-! ## Shape of regex results and string plumbing -/

theorem toList_mk (cs : List Char) : (String.mk cs).toList = cs := rfl

theorem toList_append (a b : String) :
    (a ++ b).toList = a.toList ++ b.toList := rfl

theorem mk_toList (s : String) : String.mk s.toList = s := rfl

theorem matchValue_shape (cs : List Char) :
    ∀ v r, matchValue cs = some (v, r) →
    v ≠ [] ∧ v.head? = cs.head? ∧ (∀ c ∈ v.drop 1, c ≠ ';') ∧
      ∀ c ∈ v, c ≠ '\n' := by
  induction cs with
  | nil => intro v r h; exact absurd h (by simp [matchValue])
  | cons c rest ih =>
    intro v r h
    unfold matchValue at h
    by_cases hcn : c = '\n'
    · rw [if_pos hcn] at h; simp at h
    · rw [if_neg hcn] at h
      by_cases hh : rest.head? = some ';'
      · rw [if_pos hh] at h
        simp only [Option.some.injEq, Prod.mk.injEq] at h
        obtain ⟨hv, _⟩ := h
        subst hv
        refine ⟨by simp, by simp, by simp, ?_⟩
        intro x hx
        simp only [List.mem_singleton] at hx
        subst hx
        exact hcn
      · rw [if_neg hh] at h
        cases hrec : matchValue rest with
        | none => rw [hrec] at h; simp at h
        | some p =>
          obtain ⟨v2, rem⟩ := p
          rw [hrec] at h
          simp only [Option.some.injEq, Prod.mk.injEq] at h
          obtain ⟨hv, _⟩ := h
          subst hv
          obtain ⟨h1, h2, h3, h4⟩ := ih v2 rem hrec
          refine ⟨by simp, by simp, ?_, ?_⟩
          · intro x hx
            simp only [List.drop_one, List.tail_cons] at hx
            cases v2 with
            | nil => simp at hx
            | cons a v3 =>
              rcases List.mem_cons.mp hx with h5 | h5
              · subst h5
                intro hx2
                apply hh
                rw [← h2, hx2]
                rfl
              · apply h3
                simp only [List.drop_one, List.tail_cons]
                exact h5
          · intro x hx
            rcases List.mem_cons.mp hx with h5 | h5
            · subst h5; exact hcn
            · exact h4 x h5

theorem matchSpacesValue_shape (cs : List Char) :
    ∀ v r, matchSpacesValue cs = some (v, r) →
    v ≠ [] ∧ (∀ c ∈ v.drop 1, c ≠ ';') ∧ ∀ c ∈ v, c ≠ '\n' := by
  induction cs with
  | nil => intro v r h; exact absurd h (by simp [matchSpacesValue])
  | cons c rest ih =>
    intro v r h
    unfold matchSpacesValue at h
    by_cases hc : c = ' '
    · rw [if_pos hc] at h
      cases hrec : matchSpacesValue rest with
      | some p =>
        obtain ⟨v2, rem⟩ := p
        rw [hrec] at h
        simp only [Option.some.injEq, Prod.mk.injEq] at h
        obtain ⟨hv, _⟩ := h
        subst hv
        exact ih v2 rem hrec
      | none =>
        rw [hrec] at h
        have := matchValue_shape (c :: rest) v r h
        exact ⟨this.1, this.2.2.1, this.2.2.2⟩
    · rw [if_neg hc] at h
      have := matchValue_shape (c :: rest) v r h
      exact ⟨this.1, this.2.2.1, this.2.2.2⟩

theorem matchKeyAux_val_shape (cs : List Char) :
    ∀ acc k v r, matchKeyAux acc cs = some (k, v, r) →
    v.toList ≠ [] ∧ (∀ c ∈ v.toList.drop 1, c ≠ ';') ∧
      ∀ c ∈ v.toList, c ≠ '\n' := by
  induction cs with
  | nil => intro acc k v r h; exact absurd h (by simp [matchKeyAux])
  | cons c rest ih =>
    intro acc k v r h
    unfold matchKeyAux at h
    by_cases hcn : c = '\n'
    · rw [if_pos hcn] at h; simp at h
    · rw [if_neg hcn] at h
      cases hskip : skipSpacesColon rest with
      | some t =>
        rw [hskip] at h
        dsimp only at h
        cases hmv : matchSpacesValue t with
        | some p =>
          obtain ⟨v2, rem⟩ := p
          rw [hmv] at h
          simp only [Option.some.injEq, Prod.mk.injEq] at h
          obtain ⟨_, hv, _⟩ := h
          obtain ⟨s1, s2, s3⟩ := matchSpacesValue_shape t v2 rem hmv
          rw [← hv]
          exact ⟨by simpa using s1, by simpa using s2, by simpa using s3⟩
        | none =>
          rw [hmv] at h
          exact ih _ k v r h
      | none =>
        rw [hskip] at h
        dsimp only at h
        exact ih _ k v r h

theorem findall_val_shape_aux (fuel : Nat) :
    ∀ cs k v, (k, v) ∈ findallAux fuel cs →
    v.toList ≠ [] ∧ (∀ c ∈ v.toList.drop 1, c ≠ ';') ∧
      ∀ c ∈ v.toList, c ≠ '\n' := by
  induction fuel with
  | zero => intro cs k v h; simp [findallAux] at h
  | succ f ih =>
    intro cs k v h
    cases cs with
    | nil => simp [findallAux] at h
    | cons c rest =>
      unfold findallAux at h
      cases hm : matchKeyAux [] (c :: rest) with
      | some p =>
        obtain ⟨k2, v2, rem⟩ := p
        rw [hm] at h
        rcases List.mem_cons.mp h with h1 | h1
        · simp only [Prod.mk.injEq] at h1
          obtain ⟨h1k, h1v⟩ := h1
          subst h1v
          exact matchKeyAux_val_shape _ _ _ _ _ hm
        · exact ih rem k v h1
      | none =>
        rw [hm] at h
        exact ih rest k v h

theorem findall_val_shape (s : String) (k v : String)
    (h : (k, v) ∈ styleRegexFindall s) :
    v.toList ≠ [] ∧ (∀ c ∈ v.toList.drop 1, c ≠ ';') ∧
      ∀ c ∈ v.toList, c ≠ '\n' :=
  findall_val_shape_aux _ _ k v h

theorem foldl_append_toList : ∀ (l : List String) (acc : String),
    (l.foldl (· ++ ·) acc).toList = acc.toList ++ (l.map String.toList).flatten := by
  intro l
  induction l with
  | nil => intro acc; simp
  | cons s l ih =>
    intro acc
    simp only [List.foldl_cons, List.map_cons, List.flatten_cons]
    rw [ih, toList_append, List.append_assoc]

theorem join_toList (l : List String) :
    (String.join l).toList = (l.map String.toList).flatten := by
  show (l.foldl (· ++ ·) "").toList = _
  rw [foldl_append_toList]
  rfl

theorem serializeStyles_toList (d : List (String × String)) :
    (serializeStyles d).toList
      = spacedJoinChars (d.map fun kv => (kv.1.toList, kv.2.toList, 0, 0)) := by
  induction d with
  | nil => rfl
  | cons kv d ih =>
    show (String.join ((kv.1 ++ ":" ++ kv.2 ++ ";") ::
      (d.map fun kv => kv.1 ++ ":" ++ kv.2 ++ ";"))).toList = _
    rw [join_toList]
    simp only [List.map_cons, List.flatten_cons]
    rw [← join_toList]
    have hrec : (String.join (d.map fun kv => kv.1 ++ ":" ++ kv.2 ++ ";")).toList
        = spacedJoinChars (d.map fun kv => (kv.1.toList, kv.2.toList, 0, 0)) := by
      rw [← ih]
      rfl
    rw [hrec]
    show (kv.1 ++ ":" ++ kv.2 ++ ";").toList ++ _
      = spacedDeclChars kv.1.toList kv.2.toList 0 0 ++ _
    congr 1
    unfold spacedDeclChars
    simp only [toList_append, List.replicate, List.nil_append]
    simp [List.append_assoc]

theorem map_mk_pairs (d : List (String × String)) :
    d.map (fun kv => (String.mk kv.1.toList, String.mk kv.2.toList)) = d := by
  induction d with
  | nil => rfl
  | cons kv d ih =>
    simp only [List.map_cons, ih]
    rfl

theorem findall_serializeStyles (d : List (String × String))
    (h : ∀ kv ∈ d, NiceKeyL kv.1.toList ∧ StableValL kv.2.toList) :
    styleRegexFindall (serializeStyles d) = d := by
  unfold styleRegexFindall
  rw [serializeStyles_toList]
  rw [findallAux_round_trip _ (by
    intro e he
    obtain ⟨kv, hkv, heq⟩ := List.mem_map.mp he
    rw [← heq]
    exact h kv hkv) _ le_rfl]
  rw [List.map_map]
  show d.map (fun kv => (String.mk kv.1.toList, String.mk kv.2.toList)) = d
  exact map_mk_pairs d

/-! ## Dict structure lemmas for the emission invariant -/

theorem lookup_eq_none_iff {α : Type} (d : List (String × α)) (k : String) :
    d.lookup k = none ↔ ∀ kv ∈ d, ¬ kv.1 = k := by
  induction d with
  | nil => simp
  | cons kv d ih =>
    obtain ⟨a, b⟩ := kv
    rw [lookup_cons_str]
    by_cases hk : a = k
    · simp only [if_pos hk]
      constructor
      · intro h; simp at h
      · intro h
        exact absurd hk (h (a, b) (List.mem_cons_self _ _))
    · simp only [if_neg hk, ih]
      constructor
      · intro h kv2 hm
        rcases List.mem_cons.mp hm with h1 | h1
        · rw [h1]; exact hk
        · exact h kv2 h1
      · intro h kv2 hm
        exact h kv2 (List.mem_cons_of_mem _ hm)

theorem map_update_id {α : Type} (d : List (String × α)) (k : String) (v : α)
    (h : ∀ kv ∈ d, ¬ kv.1 = k) :
    (d.map fun kv => if kv.1 = k then (k, v) else kv) = d := by
  induction d with
  | nil => rfl
  | cons kv d ih =>
    simp only [List.map_cons,
      if_neg (h kv (List.mem_cons_self _ _)),
      ih (fun kv2 hm => h kv2 (List.mem_cons_of_mem _ hm))]

theorem dictSet_head_key {α : Type} (k0 k : String) (v0 v : α)
    (rest : List (String × α)) :
    ∃ w rest', dictSet ((k0, v0) :: rest) k v = (k0, w) :: rest' := by
  unfold dictSet
  split
  · by_cases hk : k0 = k
    · exact ⟨v, rest.map fun kv => if kv.1 = k then (k, v) else kv,
        by simp only [List.map_cons, if_pos hk]; rw [← hk]⟩
    · exact ⟨v0, rest.map fun kv => if kv.1 = k then (k, v) else kv,
        by simp only [List.map_cons, if_neg hk]⟩
  · exact ⟨v0, rest ++ [(k, v)], by simp⟩

theorem dictSet_update_head {α : Type} (k : String) (v0 v : α)
    (rest : List (String × α)) (h : ∀ kv ∈ rest, ¬ kv.1 = k) :
    dictSet ((k, v0) :: rest) k v = (k, v) :: rest := by
  unfold dictSet
  rw [if_pos (by rw [lookup_cons_str, if_pos rfl]; rfl)]
  simp only [List.map_cons]
  rw [map_update_id rest k v h]
  simp

theorem dictDel_cons_self {α : Type} (k : String) (v0 : α)
    (rest : List (String × α)) (h : ∀ kv ∈ rest, ¬ kv.1 = k) :
    dictDel ((k, v0) :: rest) k = rest := by
  unfold dictDel
  rw [List.filter_cons_of_neg (by simp)]
  rw [List.filter_eq_self.mpr]
  intro kv hm
  simp [h kv hm]

theorem lookup_dictDel_self {α : Type} (d : List (String × α)) (k : String) :
    (dictDel d k).lookup k = none := by
  rw [lookup_eq_none_iff]
  intro kv hm
  have := List.of_mem_filter hm
  simpa using this

theorem keys_map_update {α : Type} (d : List (String × α)) (k : String) (v : α) :
    ((d.map fun kv => if kv.1 = k then (k, v) else kv).map Prod.fst)
      = d.map Prod.fst := by
  induction d with
  | nil => rfl
  | cons kv d ih =>
    simp only [List.map_cons, ih]
    by_cases hk : kv.1 = k
    · rw [if_pos hk]
      simp [hk]
    · rw [if_neg hk]

theorem dictSet_keys_isSome {α : Type} (d : List (String × α)) (k : String)
    (v : α) (h : (d.lookup k).isSome = true) :
    (dictSet d k v).map Prod.fst = d.map Prod.fst := by
  unfold dictSet
  rw [if_pos h]
  exact keys_map_update d k v

theorem dictSet_keys_fresh {α : Type} (d : List (String × α)) (k : String)
    (v : α) (h : d.lookup k = none) :
    (dictSet d k v).map Prod.fst = d.map Prod.fst ++ [k] := by
  rw [dictSet_fresh d k v h]
  simp

theorem dictSet_nodup {α : Type} (d : List (String × α)) (k : String) (v : α)
    (h : (d.map Prod.fst).Nodup) : ((dictSet d k v).map Prod.fst).Nodup := by
  cases hl : d.lookup k with
  | some b =>
    rw [dictSet_keys_isSome d k v (by rw [hl]; rfl)]
    exact h
  | none =>
    rw [dictSet_keys_fresh d k v hl]
    rw [List.nodup_append]
    refine ⟨h, List.nodup_singleton _, ?_⟩
    intro a ha hb
    simp only [List.mem_singleton] at hb
    subst hb
    obtain ⟨kv, hkv, hfst⟩ := List.mem_map.mp ha
    rw [lookup_eq_none_iff] at hl
    exact hl kv hkv hfst

theorem dictDel_nodup {α : Type} (d : List (String × α)) (k : String)
    (h : (d.map Prod.fst).Nodup) : ((dictDel d k).map Prod.fst).Nodup := by
  have hsub : List.Sublist ((dictDel d k).map Prod.fst) (d.map Prod.fst) :=
    List.Sublist.map Prod.fst (List.filter_sublist _)
  exact h.sublist hsub

theorem foldl_dictSet_ne_nil {α : Type} (L : List (String × α)) :
    ∀ d : List (String × α), d ≠ [] ∨ L ≠ [] →
    L.foldl (fun d kv => dictSet d kv.1 kv.2) d ≠ [] := by
  induction L with
  | nil =>
    intro d h
    rcases h with h | h
    · exact h
    · exact absurd rfl h
  | cons a L ih =>
    intro d _
    simp only [List.foldl_cons]
    exact ih _ (Or.inl (dictSet_ne_nil d a.1 a.2))

theorem foldl_dictSet_fresh {α : Type} (L : List (String × α)) :
    ∀ d : List (String × α), (L.map Prod.fst).Nodup →
    (∀ kv ∈ L, d.lookup kv.1 = none) →
    L.foldl (fun d kv => dictSet d kv.1 kv.2) d = d ++ L := by
  induction L with
  | nil => intro d _ _; simp
  | cons a L ih =>
    intro d hnd hfresh
    simp only [List.foldl_cons]
    rw [dictSet_fresh d a.1 a.2 (hfresh a (List.mem_cons_self _ _))]
    have : d ++ [(a.1, a.2)] = d ++ [a] := by simp
    rw [this, ih (d ++ [a]) (by simp only [List.map_cons, List.nodup_cons] at hnd; exact hnd.2) ?_]
    · simp
    · intro kv hm
      rw [lookup_eq_none_iff]
      intro kv2 hm2
      rcases List.mem_append.mp hm2 with h2 | h2
      · have := hfresh kv (List.mem_cons_of_mem _ hm)
        rw [lookup_eq_none_iff] at this
        exact this kv2 h2
      · simp only [List.mem_singleton] at h2
        subst h2
        simp only [List.map_cons, List.nodup_cons] at hnd
        intro he
        exact hnd.1 (by rw [he]; exact List.mem_map_of_mem _ hm)

/-! ## Conditional fold lemmas and override-table facts -/

theorem foldl_memStep_keys {α : Type} (allow : List String)
    (L : List (String × α)) :
    ∀ d : List (String × α), (∀ kv ∈ d, kv.1 ∈ allow) →
    ∀ kv ∈ L.foldl
      (fun d kv => if kv.1 ∈ allow then dictSet d kv.1 kv.2 else d) d,
      kv.1 ∈ allow := by
  induction L with
  | nil => intro d h; exact h
  | cons a L ih =>
    intro d h
    simp only [List.foldl_cons]
    apply ih
    intro kv hm
    split at hm
    · rcases mem_dictSet hm with h1 | h1
      · rw [h1]; assumption
      · exact h kv h1
    · exact h kv hm

theorem foldl_memStep_nodup {α : Type} (allow : List String)
    (L : List (String × α)) :
    ∀ d : List (String × α), ((d.map Prod.fst).Nodup) →
    ((L.foldl
      (fun d kv => if kv.1 ∈ allow then dictSet d kv.1 kv.2 else d) d).map
        Prod.fst).Nodup := by
  induction L with
  | nil => intro d h; exact h
  | cons a L ih =>
    intro d h
    simp only [List.foldl_cons]
    apply ih
    split
    · exact dictSet_nodup d a.1 a.2 h
    · exact h

theorem foldl_memStep_mem {α : Type} (allow : List String)
    (L : List (String × α)) :
    ∀ (d : List (String × α)) (kv : String × α),
    kv ∈ L.foldl
      (fun d kv => if kv.1 ∈ allow then dictSet d kv.1 kv.2 else d) d →
    kv ∈ d ∨ kv ∈ L := by
  induction L with
  | nil => intro d kv h; exact Or.inl h
  | cons a L ih =>
    intro d kv h
    simp only [List.foldl_cons] at h
    rcases ih _ kv h with h1 | h1
    · split at h1
      · rcases mem_dictSet h1 with h2 | h2
        · right; exact List.mem_cons.mpr (Or.inl h2)
        · left; exact h2
      · left; exact h1
    · right; exact List.mem_cons_of_mem _ h1

theorem foldl_memStep_head {α : Type} (allow : List String)
    (L : List (String × α)) :
    ∀ (k0 : String) (v0 : α) (rest : List (String × α)),
    ∃ w rest', L.foldl
      (fun d kv => if kv.1 ∈ allow then dictSet d kv.1 kv.2 else d)
      ((k0, v0) :: rest) = (k0, w) :: rest' := by
  induction L with
  | nil => intro k0 v0 rest; exact ⟨v0, rest, rfl⟩
  | cons a L ih =>
    intro k0 v0 rest
    simp only [List.foldl_cons]
    split
    · obtain ⟨w1, rest1, h1⟩ := dictSet_head_key k0 a.1 v0 a.2 rest
      rw [h1]
      exact ih k0 w1 rest1
    · exact ih k0 v0 rest

theorem foldl_memStep_fresh {α : Type} (allow : List String)
    (L : List (String × α)) :
    ∀ d : List (String × α), (∀ kv ∈ L, kv.1 ∈ allow) →
    ((L.map Prod.fst).Nodup) → (∀ kv ∈ L, d.lookup kv.1 = none) →
    L.foldl (fun d kv => if kv.1 ∈ allow then dictSet d kv.1 kv.2 else d) d
      = d ++ L := by
  induction L with
  | nil => intro d _ _ _; simp
  | cons a L ih =>
    intro d hall hnd hfresh
    simp only [List.foldl_cons]
    rw [if_pos (hall a (List.mem_cons_self _ _))]
    rw [dictSet_fresh d a.1 a.2 (hfresh a (List.mem_cons_self _ _))]
    have heta : d ++ [(a.1, a.2)] = d ++ [a] := by simp
    rw [heta]
    rw [ih (d ++ [a]) (fun kv hm => hall kv (List.mem_cons_of_mem _ hm))
      (by simp only [List.map_cons, List.nodup_cons] at hnd; exact hnd.2) ?_]
    · simp
    · intro kv hm
      rw [lookup_eq_none_iff]
      intro kv2 hm2
      rcases List.mem_append.mp hm2 with h2 | h2
      · have := hfresh kv (List.mem_cons_of_mem _ hm)
        rw [lookup_eq_none_iff] at this
        exact this kv2 h2
      · simp only [List.mem_singleton] at h2
        subst h2
        simp only [List.map_cons, List.nodup_cons] at hnd
        intro he
        exact hnd.1 (by rw [he]; exact List.mem_map_of_mem _ hm)

theorem foldl_memStep_skip {α : Type} (allow : List String)
    (L : List (String × α)) :
    ∀ d : List (String × α), (∀ kv ∈ L, kv.1 ∉ allow) →
    L.foldl (fun d kv => if kv.1 ∈ allow then dictSet d kv.1 kv.2 else d) d
      = d := by
  induction L with
  | nil => intro d _; rfl
  | cons a L ih =>
    intro d h
    simp only [List.foldl_cons]
    rw [if_neg (h a (List.mem_cons_self _ _))]
    exact ih d (fun kv hm => h kv (List.mem_cons_of_mem _ hm))

theorem parseAttrs_keys (attrs : List (String × Option String)) :
    ∀ kv ∈ parseAttrs attrs, kv.1 ∈ _allowedAttributes := by
  unfold parseAttrs
  apply foldl_memStep_keys
  intro kv hm
  simp only [List.mem_singleton] at hm
  rw [hm]
  decide

theorem parseAttrs_nodup (attrs : List (String × Option String)) :
    ((parseAttrs attrs).map Prod.fst).Nodup := by
  unfold parseAttrs
  apply foldl_memStep_nodup
  simp

theorem parseAttrs_shape (attrs : List (String × Option String)) :
    ∃ w rest, parseAttrs attrs = ("style", w) :: rest := by
  unfold parseAttrs
  exact foldl_memStep_head _ attrs "style" (some "") []

theorem filterStyles_keys (ps : List (String × String)) :
    ∀ kv ∈ filterStyles ps, kv.1 ∈ _allowedStyles := by
  unfold filterStyles
  apply foldl_memStep_keys
  simp

theorem filterStyles_nodup (ps : List (String × String)) :
    ((filterStyles ps).map Prod.fst).Nodup := by
  unfold filterStyles
  apply foldl_memStep_nodup
  simp

theorem filterStyles_mem {ps : List (String × String)} {kv : String × String}
    (h : kv ∈ filterStyles ps) : kv ∈ ps := by
  unfold filterStyles at h
  rcases foldl_memStep_mem _ ps [] kv h with h1 | h1
  · simp at h1
  · exact h1

theorem filterStyles_append (A O : List (String × String))
    (hA : ∀ kv ∈ A, kv.1 ∈ _allowedStyles) (hAnd : (A.map Prod.fst).Nodup)
    (hO : ∀ kv ∈ O, kv.1 ∉ _allowedStyles) :
    filterStyles (A ++ O) = A := by
  unfold filterStyles
  rw [List.foldl_append]
  rw [foldl_memStep_fresh _ A [] hA hAnd (by simp)]
  rw [List.nil_append]
  exact foldl_memStep_skip _ O A hO

theorem ovrList_cases (tag : String) :
    ovrList tag = [] ∨ (tag, ovrList tag) ∈ _overrideStyles := by
  unfold ovrList
  cases hov : _overrideStyles.lookup tag with
  | none => left; rfl
  | some ov => right; exact lookup_mem hov

theorem ovr_entry_props (tag : String) :
    (∀ kv ∈ ovrList tag, NiceKeyL kv.1.toList ∧ StableValL kv.2.toList ∧
      kv.1 ∉ _allowedStyles) ∧ ((ovrList tag).map Prod.fst).Nodup := by
  rcases ovrList_cases tag with h | h
  · rw [h]
    exact ⟨by simp, by simp⟩
  · generalize hL : ovrList tag = L at h ⊢
    fin_cases h <;> exact ⟨by decide, by decide⟩

theorem ovr_some_ne_nil {tag : String} {ov : List (String × String)}
    (h : _overrideStyles.lookup tag = some ov) : ov ≠ [] := by
  have hmem := lookup_mem h
  fin_cases hmem <;> decide

theorem styleDictFor_decomp (tag : String) (raw : String) :
    styleDictFor tag raw = authorStyles raw ++ ovrList tag := by
  unfold styleDictFor applyOverrides
  cases hov : _overrideStyles.lookup tag with
  | none =>
    unfold ovrList
    rw [hov]
    simp
  | some ov =>
    have hfst : ovrList tag = ov := by unfold ovrList; rw [hov]; rfl
    rw [hfst]
    apply foldl_dictSet_fresh
    · have := (ovr_entry_props tag).2
      rwa [hfst] at this
    · intro kv hm
      rw [lookup_eq_none_iff]
      intro kv2 hm2 he
      have h1 := filterStyles_keys _ kv2 hm2
      have h2 := ((ovr_entry_props tag).1 kv (by rw [hfst]; exact hm)).2.2
      rw [he] at h1
      exact h2 h1

theorem allowedStyles_nice : ∀ k ∈ _allowedStyles, NiceKeyL k.toList := by
  decide

theorem styleDictFor_empty (tag : String) (raw : String)
    (h : styleDictFor tag raw = []) : _overrideStyles.lookup tag = none := by
  cases hov : _overrideStyles.lookup tag with
  | none => rfl
  | some ov =>
    exfalso
    unfold styleDictFor applyOverrides at h
    rw [hov] at h
    exact foldl_dictSet_ne_nil ov _ (Or.inr (ovr_some_ne_nil hov)) h

/-! ## Emitted start tags and their reprocessing -/

theorem imgStep_noop (o : Oracles) (tag : String)
    (DD : List (String × Option String))
    (h : tag = "img" → DD.lookup "src" = none) :
    imgStepE o tag DD = Except.ok (DD, []) := by
  unfold imgStepE
  by_cases himg : tag = "img"
  · rw [if_pos himg, h himg]
  · rw [if_neg himg]

theorem styleRawOf_eq (attrs : List (String × Option String)) (sr : String)
    (h : styleRawE attrs = Except.ok sr) : styleRawOf attrs = sr := by
  unfold styleRawOf
  rw [h]

theorem pureStartE_decomp (o : Oracles) (tag : String)
    (attrs D : List (String × Option String)) (frag : String)
    (w : List String)
    (hps : pureStartE o tag attrs = Except.ok (D, frag, w)) :
    ∃ sr r str, styleRawE attrs = Except.ok sr ∧
      imgStepE o tag (attrDictAfterStyle tag attrs sr) = Except.ok r ∧
      r.1 = D ∧ r.2 = w ∧ attrStrE D = Except.ok str ∧
      frag = "<" ++ tag ++ str ++ ">" := by
  cases hsr : styleRawE attrs with
  | error e =>
    exfalso
    unfold pureStartE at hps
    rw [hsr] at hps
    exact Except.noConfusion hps
  | ok sr =>
    unfold pureStartE at hps
    rw [hsr, bindE_ok] at hps
    cases hr : imgStepE o tag (attrDictAfterStyle tag attrs sr) with
    | error e =>
      exfalso
      rw [hr] at hps
      exact Except.noConfusion hps
    | ok r =>
      rw [hr, bindE_ok] at hps
      cases hstr : attrStrE r.1 with
      | error e =>
        exfalso
        rw [hstr] at hps
        exact Except.noConfusion hps
      | ok str =>
        rw [hstr, bindE_ok] at hps
        simp only [Except.ok.injEq, Prod.mk.injEq] at hps
        refine ⟨sr, r, str, rfl, hr, hps.1, hps.2.2, ?_, hps.2.1.symm⟩
        rw [hps.1] at hstr
        exact hstr

theorem lookup_src_attrDictAfterStyle (tag : String)
    (attrs : List (String × Option String)) (sr : String)
    (h : ∀ kv ∈ attrs, ¬ kv.1 = "src") :
    (attrDictAfterStyle tag attrs sr).lookup "src" = none := by
  have hpa : (parseAttrs attrs).lookup "src" = none := by
    unfold parseAttrs
    rw [lookup_foldl_attrStep_not_mem h]
    rw [lookup_cons_str, if_neg (by decide)]
    rfl
  unfold attrDictAfterStyle
  split
  · rw [lookup_dictDel_ne _ _ _ (by decide)]
    exact hpa
  · rw [lookup_dictSet_ne _ _ _ _ (by decide)]
    exact hpa

theorem emitted_start_good (o : Oracles) (tag : String)
    (attrs D : List (String × Option String)) (frag : String)
    (w : List String)
    (hv : ∀ kv ∈ attrs, kv.2.isSome = true)
    (himg : tag = "img" → ∀ kv ∈ attrs, ¬ kv.1 = "src")
    (hstable : ∀ kv ∈ styleRegexFindall (styleRawOf attrs),
      ¬ kv.2.toList.head? = some ' ')
    (hig : tag ∉ _ignoredTags)
    (hav : tag ∈ _allowedTags ∨ tag ∈ _voidElements)
    (hps : pureStartE o tag attrs = Except.ok (D, frag, w)) :
    GoodTok (Tok.start tag D) ∧ frag = fragOfTok (Tok.start tag D) := by
  obtain ⟨sr, r, str, hsr, hr, hr1, hr2, hstr, hfrag⟩ :=
    pureStartE_decomp o tag attrs D frag w hps
  have hsrOf := styleRawOf_eq attrs sr hsr
  have hDeq : D = attrDictAfterStyle tag attrs sr := by
    by_cases himgtag : tag = "img"
    · rw [imgStep_noop o tag _ (fun _ =>
        lookup_src_attrDictAfterStyle tag attrs sr (himg himgtag))] at hr
      simp only [Except.ok.injEq] at hr
      rw [← hr1, ← hr]
    · rw [imgStep_noop o tag _ (fun hc => absurd hc himgtag)] at hr
      simp only [Except.ok.injEq] at hr
      rw [← hr1, ← hr]
  have hkeys : ∀ kv ∈ D, kv.1 ∈ _allowedAttributes := by
    intro kv hm
    rw [hDeq] at hm
    unfold attrDictAfterStyle at hm
    split at hm
    · exact parseAttrs_keys attrs kv (mem_dictDel hm)
    · rcases mem_dictSet hm with h1 | h1
      · rw [h1]
        show ("style" : String) ∈ _allowedAttributes
        decide
      · exact parseAttrs_keys attrs kv h1
  have hvals : ∀ kv ∈ D, kv.2.isSome = true := by
    rw [hDeq]
    exact attrDictAfterStyle_values tag attrs sr hv
  have hnd : (D.map Prod.fst).Nodup := by
    rw [hDeq]
    unfold attrDictAfterStyle
    split
    · exact dictDel_nodup _ _ (parseAttrs_nodup attrs)
    · exact dictSet_nodup _ _ _ (parseAttrs_nodup attrs)
  have hsrc : tag = "img" → D.lookup "src" = none := by
    intro ht
    rw [hDeq]
    exact lookup_src_attrDictAfterStyle tag attrs sr (himg ht)
  have hgoodstyle : GoodStyle tag D := by
    rw [hDeq]
    unfold attrDictAfterStyle
    by_cases hempty : (styleDictFor tag sr).isEmpty = true
    · rw [if_pos hempty]
      unfold GoodStyle
      rw [lookup_dictDel_self]
      exact styleDictFor_empty tag sr (List.isEmpty_iff.mp hempty)
    · rw [if_neg hempty]
      unfold GoodStyle
      rw [lookup_dictSet_self]
      obtain ⟨w0, rest0, hpa⟩ := parseAttrs_shape attrs
      have hrest0 : ∀ kv ∈ rest0, ¬ kv.1 = "style" := by
        have hnd0 := parseAttrs_nodup attrs
        rw [hpa] at hnd0
        simp only [List.map_cons, List.nodup_cons] at hnd0
        intro kv hm he
        exact hnd0.1 (by rw [← he]; exact List.mem_map_of_mem _ hm)
      have hset : dictSet (parseAttrs attrs) "style"
          (some (serializeStyles (styleDictFor tag sr)))
          = ("style", some (serializeStyles (styleDictFor tag sr))) :: rest0 := by
        rw [hpa]
        exact dictSet_update_head _ _ _ _ hrest0
      refine ⟨serializeStyles (styleDictFor tag sr), rest0,
        authorStyles sr, rfl, hset, ?_, filterStyles_nodup _, ?_, ?_⟩
      · intro kv hm
        refine ⟨filterStyles_keys _ kv hm, ?_⟩
        have hmem : (kv.1, kv.2) ∈ styleRegexFindall sr := filterStyles_mem hm
        obtain ⟨s1, s2, s3⟩ := findall_val_shape sr kv.1 kv.2 hmem
        refine ⟨s1, ?_, s2, s3⟩
        have := hstable kv (by rw [hsrOf]; exact filterStyles_mem hm)
        exact this
      · rw [← styleDictFor_decomp tag sr]
        intro hc
        rw [hc] at hempty
        simp at hempty
      · rw [← styleDictFor_decomp tag sr]
  refine ⟨⟨hav, hig, (fun kv hm => ⟨hkeys kv hm, hvals kv hm⟩),
    hnd, hsrc, hgoodstyle⟩, ?_⟩
  show frag = fragOfTok (Tok.start tag D)
  simp only [fragOfTok, hstr]
  exact hfrag

theorem reprocess_start (o : Oracles) (tag : String)
    (D : List (String × Option String)) (hg : GoodTok (Tok.start tag D)) :
    ∃ str, attrStrE D = Except.ok str ∧
      pureStartE o tag D = Except.ok (D, "<" ++ tag ++ str ++ ">", []) := by
  have hg' : (tag ∈ _allowedTags ∨ tag ∈ _voidElements) ∧
      tag ∉ _ignoredTags ∧
      (∀ kv ∈ D, kv.1 ∈ _allowedAttributes ∧ kv.2.isSome = true) ∧
      (D.map Prod.fst).Nodup ∧
      (tag = "img" → D.lookup "src" = none) ∧ GoodStyle tag D := hg
  obtain ⟨hav, hig, hkv, hnd, himg, hsty⟩ := hg'
  obtain ⟨str, hstr⟩ := attrStrE_ok (fun kv hm => (hkv kv hm).2)
  refine ⟨str, hstr, ?_⟩
  unfold GoodStyle at hsty
  cases hls : D.lookup "style" with
  | some sv =>
    rw [hls] at hsty
    dsimp only at hsty
    obtain ⟨S, rest, A, hsv, hD, hA, hAnd, hne, hS⟩ := hsty
    have hrestkeys : ∀ kv ∈ rest, ¬ kv.1 = "style" := by
      have hnd2 := hnd
      rw [hD] at hnd2
      simp only [List.map_cons, List.nodup_cons] at hnd2
      intro kv hm he
      exact hnd2.1 (by rw [← he]; exact List.mem_map_of_mem _ hm)
    have hrestkeysA : ∀ kv ∈ rest, kv.1 ∈ _allowedAttributes := by
      intro kv hm
      exact (hkv kv (by rw [hD]; exact List.mem_cons_of_mem _ hm)).1
    have hrestnd : (rest.map Prod.fst).Nodup := by
      have hnd2 := hnd
      rw [hD] at hnd2
      simp only [List.map_cons, List.nodup_cons] at hnd2
      exact hnd2.2
    have hlk : ∀ kv ∈ rest,
        ([("style", some S)] : List (String × Option String)).lookup kv.1
          = none := by
      intro kv hm
      rw [lookup_cons_str, if_neg (fun he => hrestkeys kv hm he.symm)]
      rfl
    have hpa : parseAttrs D = D := by
      rw [hD]
      unfold parseAttrs
      simp only [List.foldl_cons]
      rw [if_pos (show ("style" : String) ∈ _allowedAttributes by decide)]
      rw [dictSet_update_head "style" (some "") (some S) [] (by simp)]
      rw [foldl_memStep_fresh _allowedAttributes rest [("style", some S)]
        hrestkeysA hrestnd hlk]
      rfl
    have hsrE : styleRawE D = Except.ok S := by
      unfold styleRawE
      rw [hpa, hD, lookup_cons_str, if_pos rfl]
    have hfind : styleRegexFindall S = A ++ ovrList tag := by
      rw [hS]
      apply findall_serializeStyles
      intro kv hm
      rcases List.mem_append.mp hm with h1 | h1
      · exact ⟨allowedStyles_nice _ (hA kv h1).1, (hA kv h1).2⟩
      · have hp := (ovr_entry_props tag).1 kv h1
        exact ⟨hp.1, hp.2.1⟩
    have hauthor : authorStyles S = A := by
      unfold authorStyles
      rw [hfind]
      exact filterStyles_append A (ovrList tag) (fun kv hm => (hA kv hm).1)
        hAnd (fun kv hm => ((ovr_entry_props tag).1 kv hm).2.2)
    have hsd : styleDictFor tag S = A ++ ovrList tag := by
      rw [styleDictFor_decomp tag S, hauthor]
    have hAD : attrDictAfterStyle tag D S = D := by
      unfold attrDictAfterStyle
      rw [hpa, hsd]
      rw [if_neg (fun hc => hne (List.isEmpty_iff.mp hc))]
      rw [← hS, hD]
      exact dictSet_update_head "style" (some S) (some S) rest hrestkeys
    have himgstep : imgStepE o tag (attrDictAfterStyle tag D S)
        = Except.ok (attrDictAfterStyle tag D S, []) := by
      apply imgStep_noop
      intro ht
      rw [hAD]
      exact himg ht
    simp only [pureStartE, hsrE, bindE_ok, himgstep]
    rw [hAD, hstr, bindE_ok]
  | none =>
    rw [hls] at hsty
    dsimp only at hsty
    have hDkeys : ∀ kv ∈ D, ¬ kv.1 = "style" := by
      exact (lookup_eq_none_iff D "style").mp hls
    have hDallowed : ∀ kv ∈ D, kv.1 ∈ _allowedAttributes :=
      fun kv hm => (hkv kv hm).1
    have hlk : ∀ kv ∈ D,
        ([("style", some "")] : List (String × Option String)).lookup kv.1
          = none := by
      intro kv hm
      rw [lookup_cons_str, if_neg (fun he => hDkeys kv hm he.symm)]
      rfl
    have hpa : parseAttrs D = ("style", some "") :: D := by
      unfold parseAttrs
      rw [foldl_memStep_fresh _allowedAttributes D [("style", some "")]
        hDallowed hnd hlk]
      rfl
    have hsrE : styleRawE D = Except.ok "" := by
      unfold styleRawE
      rw [hpa, lookup_cons_str, if_pos rfl]
    have hovr : ovrList tag = [] := by
      unfold ovrList
      rw [hsty]
      rfl
    have hsd : styleDictFor tag "" = [] := by
      rw [styleDictFor_decomp tag "", hovr]
      rfl
    have hAD : attrDictAfterStyle tag D "" = D := by
      unfold attrDictAfterStyle
      rw [hpa, hsd]
      rw [if_pos (show (List.isEmpty ([] : List (String × String))) = true
        from rfl)]
      exact dictDel_cons_self "style" (some "") D hDkeys
    have himgstep : imgStepE o tag (attrDictAfterStyle tag D "")
        = Except.ok (attrDictAfterStyle tag D "", []) := by
      apply imgStep_noop
      intro ht
      rw [hAD]
      exact himg ht
    simp only [pureStartE, hsrE, bindE_ok, himgstep]
    rw [hAD, hstr, bindE_ok]

/-! ## Reprocessing runs and the first-pass invariant -/

theorem goodStep (o : Oracles) (t : Tok) (hg : GoodTok t) :
    ∃ info, pureStepE o t = Except.ok info ∧ info.delta = 0 ∧
      info.frags = [fragOfTok t] ∧ info.etoks = [t] ∧
      info.warns = [] := by
  cases t with
  | data d => exact ⟨_, rfl, rfl, rfl, rfl, rfl⟩
  | endtag tag =>
    have hg' : tag ∈ _allowedTags ∧ tag ∉ _ignoredTags ∧
        tag ∉ _voidElements := hg
    obtain ⟨ha, hi, hv⟩ := hg'
    refine ⟨_, rfl, ?_, ?_, ?_, rfl⟩
    · show countDelta (Tok.endtag tag) = 0
      simp only [countDelta]
      rw [if_neg hv, if_pos ha]
    · show (if tag ∈ _voidElements then []
          else if tag ∈ _allowedTags ∧ tag ∉ _ignoredTags then
            ["</" ++ tag ++ ">"] else []) = [fragOfTok (Tok.endtag tag)]
      rw [if_neg hv, if_pos ⟨ha, hi⟩]
      rfl
    · show (if tag ∈ _voidElements then []
          else if tag ∈ _allowedTags ∧ tag ∉ _ignoredTags then
            [Tok.endtag tag] else []) = [Tok.endtag tag]
      rw [if_neg hv, if_pos ⟨ha, hi⟩]
  | start tag D =>
    have hg' : (tag ∈ _allowedTags ∨ tag ∈ _voidElements) ∧
        tag ∉ _ignoredTags ∧
        (∀ kv ∈ D, kv.1 ∈ _allowedAttributes ∧ kv.2.isSome = true) ∧
        (D.map Prod.fst).Nodup ∧
        (tag = "img" → D.lookup "src" = none) ∧ GoodStyle tag D := hg
    obtain ⟨hav, hig, -, -, -, -⟩ := hg'
    obtain ⟨str, hstr, hps⟩ := reprocess_start o tag D hg
    have hpse : pureStepE o (Tok.start tag D) = Except.ok
        { delta := countDelta (Tok.start tag D),
          frags := ["<" ++ tag ++ str ++ ">"],
          etoks := [Tok.start tag D], warns := [] } := by
      simp only [pureStepE]
      rw [if_neg hig, hps]
    refine ⟨_, hpse, ?_, ?_, rfl, rfl⟩
    · show countDelta (Tok.start tag D) = 0
      simp only [countDelta]
      by_cases hvd : tag ∈ _voidElements
      · rw [if_pos hvd]
      · rw [if_neg hvd, if_pos (hav.resolve_right hvd)]
    · show ["<" ++ tag ++ str ++ ">"] = [fragOfTok (Tok.start tag D)]
      simp only [fragOfTok, hstr]

theorem goodRun (o : Oracles) (E : List Tok) :
    ∀ s : CleanerState, (∀ t ∈ E, GoodTok t) →
    s.nonAllowedTagCountInStack = 0 →
    ∃ s', processE o s E = Except.ok s' ∧
      s'.nonAllowedTagCountInStack = 0 ∧
      s'.output = s.output ++ E.map fragOfTok := by
  induction E with
  | nil =>
    intro s _ hs
    exact ⟨s, rfl, hs, by simp⟩
  | cons t E ih =>
    intro s hE hs
    obtain ⟨info, hinfo, hd0, hfr, het, hw⟩ :=
      goodStep o t (hE t (List.mem_cons_self _ _))
    obtain ⟨s1, hs1, hc1, ho1, he1, hw1⟩ := stepE_ok_spec o s t info hinfo
    rw [hs, hd0] at hc1 ho1
    simp only [add_zero, eq_self_iff_true, if_true] at hc1 ho1
    rw [hfr] at ho1
    obtain ⟨s2, hs2, hc2, ho2⟩ :=
      ih s1 (fun u hu => hE u (List.mem_cons_of_mem _ hu)) hc1
    refine ⟨s2, ?_, hc2, ?_⟩
    · rw [processE_cons, hs1]
      exact hs2
    · rw [ho2, ho1]
      simp

theorem emission_good (o : Oracles) (t : Tok)
    (hv : valuedTok t) (hni : noImgSrcTok t) (hst : stableStyleTok t)
    (info : StepInfo) (hinfo : pureStepE o t = Except.ok info)
    (hle : countDelta t ≤ 0) :
    (∀ e ∈ info.etoks, GoodTok e) ∧
      info.frags = List.map fragOfTok info.etoks := by
  cases t with
  | data d =>
    simp only [pureStepE, Except.ok.injEq] at hinfo
    subst hinfo
    refine ⟨?_, rfl⟩
    intro e he
    rw [List.mem_singleton] at he
    subst he
    trivial
  | endtag tag =>
    simp only [pureStepE, Except.ok.injEq] at hinfo
    subst hinfo
    dsimp only
    by_cases hvd : tag ∈ _voidElements
    · rw [if_pos hvd, if_pos hvd]
      exact ⟨fun e he => absurd he (List.not_mem_nil e), rfl⟩
    · rw [if_neg hvd, if_neg hvd]
      by_cases hai : tag ∈ _allowedTags ∧ tag ∉ _ignoredTags
      · rw [if_pos hai, if_pos hai]
        refine ⟨?_, rfl⟩
        intro e he
        rw [List.mem_singleton] at he
        subst he
        exact ⟨hai.1, hai.2, hvd⟩
      · rw [if_neg hai, if_neg hai]
        exact ⟨fun e he => absurd he (List.not_mem_nil e), rfl⟩
  | start tag attrs =>
    have hd0 : countDelta (Tok.start tag attrs) = 0 := by
      simp only [countDelta] at hle ⊢
      by_cases h1 : tag ∈ _voidElements
      · rw [if_pos h1]
      · rw [if_neg h1] at hle ⊢
        by_cases h2 : tag ∈ _allowedTags
        · rw [if_pos h2]
        · rw [if_neg h2] at hle
          omega
    have hav : tag ∈ _allowedTags ∨ tag ∈ _voidElements := by
      by_contra hc
      push_neg at hc
      simp only [countDelta] at hd0
      rw [if_neg hc.2, if_neg hc.1] at hd0
      exact absurd hd0 (by decide)
    simp only [pureStepE] at hinfo
    by_cases hig : tag ∈ _ignoredTags
    · rw [if_pos hig] at hinfo
      simp only [Except.ok.injEq] at hinfo
      subst hinfo
      exact ⟨fun e he => absurd he (List.not_mem_nil e), rfl⟩
    · rw [if_neg hig] at hinfo
      cases hps : pureStartE o tag attrs with
      | error e =>
        rw [hps] at hinfo
        exact Except.noConfusion hinfo
      | ok r =>
        obtain ⟨D, frag, w⟩ := r
        rw [hps] at hinfo
        simp only [Except.ok.injEq] at hinfo
        subst hinfo
        dsimp only
        obtain ⟨hg, hfrag⟩ :=
          emitted_start_good o tag attrs D frag w hv hni hst hig hav hps
        constructor
        · intro e he
          rw [List.mem_singleton] at he
          subst he
          exact hg
        · rw [List.map_cons, List.map_nil, hfrag]

theorem pass1_inv (o : Oracles) (toks : List Tok) :
    ∀ s : CleanerState,
    (∀ t ∈ toks, valuedTok t ∧ noImgSrcTok t ∧ stableStyleTok t) →
    CountsOk s.nonAllowedTagCountInStack toks →
    0 ≤ s.nonAllowedTagCountInStack →
    (∀ e ∈ s.emitted, GoodTok e) →
    s.output = s.emitted.map fragOfTok →
    ∀ s', processE o s toks = Except.ok s' →
    (∀ e ∈ s'.emitted, GoodTok e) ∧
      s'.output = s'.emitted.map fragOfTok := by
  induction toks with
  | nil =>
    intro s _ _ _ hge hoe s' hr
    simp only [processE, Except.ok.injEq] at hr
    subst hr
    exact ⟨hge, hoe⟩
  | cons t ts ih =>
    intro s hts hco hnn hge hoe s' hr
    rw [processE_cons] at hr
    cases hstep : stepE o s t with
    | error e =>
      rw [hstep] at hr
      exact Except.noConfusion hr
    | ok s1 =>
      rw [hstep] at hr
      have hr1 : processE o s1 ts = Except.ok s' := hr
      cases hp : pureStepE o t with
      | error e =>
        have herr := stepE_err_spec o s t e hp
        rw [hstep] at herr
        exact Except.noConfusion herr
      | ok info =>
        obtain ⟨s1x, hs1x, hc1, ho1, he1, hw1⟩ := stepE_ok_spec o s t info hp
        rw [hstep] at hs1x
        injection hs1x with hs1eq
        rw [← hs1eq] at hc1 ho1 he1 hw1
        have hdel := pureStepE_delta o t info hp
        have hco' : 0 ≤ s.nonAllowedTagCountInStack + countDelta t ∧
            CountsOk (s.nonAllowedTagCountInStack + countDelta t) ts := hco
        obtain ⟨hnn1, hco1⟩ := hco'
        have hc1' : s1.nonAllowedTagCountInStack
            = s.nonAllowedTagCountInStack + countDelta t := by
          rw [hc1, hdel]
        obtain ⟨hvt, hnit, hstt⟩ := hts t (List.mem_cons_self _ _)
        have hge1 : ∀ e ∈ s1.emitted, GoodTok e := by
          rw [he1]
          by_cases hz : s.nonAllowedTagCountInStack + info.delta = 0
          · rw [if_pos hz]
            have hle : countDelta t ≤ 0 := by
              rw [hdel] at hz
              omega
            obtain ⟨hg, -⟩ := emission_good o t hvt hnit hstt info hp hle
            intro e he
            rcases List.mem_append.mp he with h1 | h1
            · exact hge e h1
            · exact hg e h1
          · rw [if_neg hz]
            intro e he
            rcases List.mem_append.mp he with h1 | h1
            · exact hge e h1
            · exact absurd h1 (List.not_mem_nil e)
        have hoe1 : s1.output = s1.emitted.map fragOfTok := by
          rw [ho1, he1]
          by_cases hz : s.nonAllowedTagCountInStack + info.delta = 0
          · rw [if_pos hz, if_pos hz]
            have hle : countDelta t ≤ 0 := by
              rw [hdel] at hz
              omega
            obtain ⟨-, hf⟩ := emission_good o t hvt hnit hstt info hp hle
            rw [List.map_append, hoe, hf]
          · rw [if_neg hz, if_neg hz]
            simp [hoe]
        exact ih s1 (fun u hu => hts u (List.mem_cons_of_mem _ hu))
          (by rw [hc1']; exact hco1) (by rw [hc1']; exact hnn1)
          hge1 hoe1 s' hr1

/-! ## Claims -/

set_option maxRecDepth 16000

/-- C1.  The code-level behavior behind the claim's failure: the start
tag of the void, non-allowed element `embed` is emitted verbatim.
`handle_starttag` neither pushes a void tag nor counts it toward
suppression, and `writeData` is reached with the counter still at zero,
so the non-whitelisted tag appears in the output: whitelist closure does
not hold. -/
theorem C1_void_tag_leak :
    cleanTagE oracleFail [Tok.start "embed" []] = Except.ok "<embed>" ∧
    "embed" ∉ _allowedTags := by
  constructor
  · rfl
  · decide

/-- C2, counterexample.  An allowed attribute written without a value
(`<a href>`) reaches the serialization step as `None`, and
`cgi.escape(None)` raises `AttributeError`: `cleanTag` does not return
for this input, refuting "never fails". -/
theorem C2_counterexample :
    cleanTagE oracleFail [Tok.start "a" [("href", none)]]
      = Except.error "AttributeError" := by rfl

/-- C2, amended.  The filter is total once every attribute of every
start tag carries a value and every attempted network fetch fails
cleanly with `URLError` (a successful `urlopen` would itself raise in
the Python-3 port, and a scheme-less `src` raises `ValueError`). -/
theorem C2_total_on_valued_attrs (o : Oracles) (toks : List Tok)
    (hv : ∀ t ∈ toks, valuedTok t)
    (hnet : ∀ u, o.net u = NetResult.urlError) :
    ∃ out, cleanTagE o toks = Except.ok out := by
  obtain ⟨s, hs⟩ := processE_total o toks initState hv hnet
  exact ⟨stripBlankLines (String.join s.output),
    by simp only [cleanTagE, hs, bindE_ok]⟩

theorem C2_witness :
    ∃ out, cleanTagE oracleFail
      [Tok.start "p" [("style", some "color:red;")], Tok.data "hi",
       Tok.endtag "p"] = Except.ok out :=
  C2_total_on_valued_attrs oracleFail _
    (by intro t ht; fin_cases ht <;> simp [valuedTok])
    (fun u => rfl)

/-- C7.  The mismatched input `<b><i>text</b></i>` is cleaned without
any exception: the output closes both tags in the source order of the
end tags, keeps "text" exactly once, and the discarded stack entry is
recorded only in the non-fatal `parseError` flag. -/
theorem C7_malformed_recovery :
    cleanTagE oracleFail
      [Tok.start "b" [], Tok.start "i" [], Tok.data "text",
       Tok.endtag "b", Tok.endtag "i"] = Except.ok "<b><i>text</b></i>" ∧
    (processE oracleFail initState
      [Tok.start "b" [], Tok.start "i" [], Tok.data "text",
       Tok.endtag "b", Tok.endtag "i"]).map CleanerState.parseError
      = Except.ok true := by
  constructor
  · rfl
  · rfl

/-- C6.  Override precedence: the concrete `<table style="width:10px;">`
input serializes the override `width:100%` (the author `10px` is not
even in the style whitelist), and in general every declaration of a
tag's override entry wins the lookup in the final style dict, whatever
the author styles were. -/
theorem C6_override_precedence :
    cleanTagE oracleFail
      [Tok.start "table" [("style", some "width:10px;")], Tok.endtag "table"]
      = Except.ok ("<table style=\"box-sizing:border-box;width:100%;" ++
          "margin:.5em;border-collapse:collapse;outline:1px solid black;\">" ++
          "</table>") ∧
    ∀ tag ov raw, _overrideStyles.lookup tag = some ov →
      (ov.map Prod.fst).Nodup →
      ∀ k v, (k, v) ∈ ov → (styleDictFor tag raw).lookup k = some v := by
  constructor
  · rfl
  · intro tag ov raw hov hnd k v hmem
    unfold styleDictFor applyOverrides
    rw [hov]
    exact lookup_foldl_dictSet_mem hnd hmem _

theorem C6_witness :
    (styleDictFor "table" "width:10px;").lookup "width" = some "100%" :=
  C6_override_precedence.2 "table"
    [("box-sizing", "border-box"), ("width", "100%"), ("margin", ".5em"),
     ("border-collapse", "collapse"), ("outline", "1px solid black")]
    "width:10px;" rfl (by decide) "width" "100%" (by decide)

/-- C9, counterexample.  The parser is not whitespace-tolerant around a
declaration boundary: after `"; "` the space becomes part of the next
property name, so the whitelisted declaration `font-style:italic`
written with a single leading space parses to the key `" font-style"`
and is dropped entirely by the consumer filter. -/
theorem C9_counterexample :
    styleRegexFindall " font-style:italic;" = [(" font-style", "italic")] ∧
    authorStyles " font-style:italic;" = [] ∧
    authorStyles "font-style:italic;" = [("font-style", "italic")] := by
  refine ⟨?_, ?_, ?_⟩ <;> rfl

/-- C5, counterexample.  Pass one of
`<div style="color: ;">` keeps the author value `" "` (the regex's
greedy `" *"` backtracks one space) and appends the `div` override,
emitting `style="color: ;padding:.2em;"`.  Re-running the filter on
exactly the token the first pass emitted (the output string contains no
quote or entity, so the tokenizer returns it verbatim) re-parses the
serialized style as `color:";padding:.2em"`, producing a different
string: `cleanTag` is not idempotent. -/
theorem C5_counterexample :
    cleanTagE oracleFail [Tok.start "div" [("style", some "color: ;")]]
      = Except.ok "<div style=\"color: ;padding:.2em;\">" ∧
    (processE oracleFail initState
        [Tok.start "div" [("style", some "color: ;")]]).map CleanerState.emitted
      = Except.ok [Tok.start "div" [("style", some "color: ;padding:.2em;")]] ∧
    cleanTagE oracleFail
        [Tok.start "div" [("style", some "color: ;padding:.2em;")]]
      = Except.ok "<div style=\"color:;padding:.2em;padding:.2em;\">" ∧
    ("<div style=\"color: ;padding:.2em;\">" : String)
      ≠ "<div style=\"color:;padding:.2em;padding:.2em;\">" := by
  refine ⟨rfl, rfl, rfl, ?_⟩
  decide

/-- C3.  Suppression symmetry.  First part: a disallowed non-void tag
wrapping only allowed content yields the empty output, so in particular
all inner text is absent.  Second part: inserting such a block between
any prefix that leaves the counter at zero (e.g. well-formed allowed
context) and any suffix drops exactly the block, leaving the output of
the surrounding content unchanged. -/
theorem C3_suppression_symmetry :
    (∀ (o : Oracles), (∀ u, o.net u = NetResult.urlError) →
      ∀ (d : String) (attrs : List (String × Option String)) (inner : List Tok),
      d ∉ _allowedTags → d ∉ _voidElements →
      (∀ kv ∈ attrs, kv.2.isSome = true) →
      (∀ t ∈ inner, innerTok t) →
      cleanTagE o (Tok.start d attrs :: (inner ++ [Tok.endtag d]))
        = Except.ok "") ∧
    (∀ (o : Oracles), (∀ u, o.net u = NetResult.urlError) →
      ∀ (pre post : List Tok) (d : String)
        (attrs : List (String × Option String)) (inner : List Tok)
        (s1 : CleanerState),
      processE o initState pre = Except.ok s1 →
      s1.nonAllowedTagCountInStack = 0 →
      d ∉ _allowedTags → d ∉ _voidElements →
      (∀ kv ∈ attrs, kv.2.isSome = true) →
      (∀ t ∈ inner, innerTok t) →
      (∀ t ∈ post, valuedTok t) →
      ∃ sF sP,
        processE o initState
          (pre ++ (Tok.start d attrs :: (inner ++ [Tok.endtag d])) ++ post)
          = Except.ok sF ∧
        processE o initState (pre ++ post) = Except.ok sP ∧
        sF.output = sP.output) := by
  constructor
  · intro o hnet d attrs inner hda hdv hattrs hinner
    obtain ⟨s3, hrun, _, hout⟩ := blockRun o hnet d attrs inner hda hdv hattrs
      hinner initState rfl
    simp only [cleanTagE, hrun, bindE_ok, hout]
    rfl
  · intro o hnet pre post d attrs inner s1 hpre hc1 hda hdv hattrs hinner hpost
    obtain ⟨s3, hblock, hc3, ho3⟩ := blockRun o hnet d attrs inner hda hdv
      hattrs hinner s1 hc1
    obtain ⟨sP, hsP⟩ := processE_total o post s1 hpost hnet
    obtain ⟨sF, hsF, hFc, hFo⟩ := run_congr o post s1 s3 sP
      (by rw [hc1, hc3]) ho3.symm hsP
    refine ⟨sF, sP, ?_, ?_, hFo⟩
    · rw [processE_append, processE_append, hpre]
      simp only [Except.bind]
      rw [hblock]
      exact hsF
    · rw [processE_append, hpre]
      simp only [Except.bind]
      exact hsP

theorem C3_witness :
    cleanTagE oracleFail
      [Tok.start "script" [], Tok.data "x", Tok.endtag "script"]
      = Except.ok "" ∧
    ∃ sF sP,
      processE oracleFail initState
        ([Tok.start "div" []] ++
          (Tok.start "script" [] ::
            ([Tok.start "b" [], Tok.data "x", Tok.endtag "b"] ++
              [Tok.endtag "script"])) ++
          [Tok.data "B", Tok.endtag "div"]) = Except.ok sF ∧
      processE oracleFail initState
        ([Tok.start "div" []] ++ [Tok.data "B", Tok.endtag "div"])
        = Except.ok sP ∧
      sF.output = sP.output := by
  constructor
  · exact C3_suppression_symmetry.1 oracleFail (fun u => rfl) "script" []
      [Tok.data "x"] (by decide) (by decide) (by simp)
      (by intro t ht
          simp only [List.mem_singleton] at ht
          subst ht
          trivial)
  · exact C3_suppression_symmetry.2 oracleFail (fun u => rfl)
      [Tok.start "div" []] [Tok.data "B", Tok.endtag "div"] "script" []
      [Tok.start "b" [], Tok.data "x", Tok.endtag "b"]
      { nonAllowedTagCountInStack := 0,
        output := ["<div style=\"padding:.2em;\">"],
        tagStack := ["div"], parseError := false, warnings := [],
        emitted := [Tok.start "div" [("style", some "padding:.2em;")]] }
      rfl rfl (by decide) (by decide) (by simp) (by decide) (by decide)

/-- C4, counterexample.  After the unmatched `</script>` the counter is
-1, but a subsequent `<script>` start tag brings it back to zero and
output resumes: the disallowed start tag itself and the following text
are emitted, so "every subsequent tag and text fragment is omitted" is
false. -/
theorem C4_counterexample :
    cleanTagE oracleFail
      [Tok.endtag "script", Tok.start "script" [], Tok.data "hi"]
      = Except.ok "<script>hi" ∧ "script" ∉ _allowedTags := by
  exact ⟨rfl, by decide⟩

/-- C4, amended.  An end tag of a non-void, non-allowed tag with no
matching open tag drives the counter to -1, and every subsequent token
is omitted from the output as long as no further start tag of a
non-allowed non-void tag occurs (such a start tag would return the
counter to zero and let output resume). -/
theorem C4_negative_counter (o : Oracles)
    (hnet : ∀ u, o.net u = NetResult.urlError) (t : String) (P : List Tok)
    (hta : t ∉ _allowedTags) (htv : t ∉ _voidElements)
    (hP : ∀ tok ∈ P, valuedTok tok ∧ ¬ disallowedStart tok) :
    ∃ s1 s', processE o initState [Tok.endtag t] = Except.ok s1 ∧
      s1.nonAllowedTagCountInStack = -1 ∧
      processE o initState (Tok.endtag t :: P) = Except.ok s' ∧
      s'.output = [] ∧ s'.nonAllowedTagCountInStack < 0 := by
  have hp2 : pureStepE o (Tok.endtag t) = Except.ok ⟨-1, [], [], []⟩ := by
    simp [pureStepE, countDelta, htv, hta]
  obtain ⟨s1, h1, hc1, ho1, _, _⟩ := stepE_ok_spec o initState _ _ hp2
  have hc1' : s1.nonAllowedTagCountInStack = -1 := by
    rw [hc1]; rfl
  have ho1' : s1.output = [] := by
    rw [ho1]
    simp [initState]
  obtain ⟨s', hs', ho', hc'⟩ := negative_run o P hP hnet s1 (by rw [hc1']; decide)
  refine ⟨s1, s', ?_, hc1', ?_, by rw [ho', ho1'], hc'⟩
  · rw [processE_cons, h1]; rfl
  · rw [processE_cons, h1]
    simp only [Except.bind]
    exact hs'

theorem C4_witness :
    ∃ s1 s', processE oracleFail initState [Tok.endtag "script"]
        = Except.ok s1 ∧
      s1.nonAllowedTagCountInStack = -1 ∧
      processE oracleFail initState
        (Tok.endtag "script" :: [Tok.start "b" [], Tok.data "x"])
        = Except.ok s' ∧
      s'.output = [] ∧ s'.nonAllowedTagCountInStack < 0 :=
  C4_negative_counter oracleFail (fun u => rfl) "script"
    [Tok.start "b" [], Tok.data "x"] (by decide) (by decide)
    (by decide)

/-- C8.  Graceful media failure: for an `img` start tag whose `src` is a
non-file URL on which `urlopen` raises `URLError`, `downloadMedia`
returns the failure value `None`, exactly one tooltip warning is issued,
the emitted tag still carries the original URL as its `src` (the image
element is never dropped), and the counter and tag stack are untouched,
so the remainder of the document is processed exactly as it would
otherwise be. -/
theorem C8_graceful_media_failure (o : Oracles) (s : CleanerState) (u : String)
    (rest : List (String × Option String))
    (hfile : strStartsWith u "file://" = false)
    (hnet2 : o.net u = NetResult.urlError)
    (hrest : ∀ kv ∈ rest, kv.2.isSome = true)
    (hnosrc : ∀ kv ∈ rest, ¬ kv.1 = "src") :
    downloadMediaE o u = Except.ok none ∧
    ∃ D str s',
      stepE o s (Tok.start "img" (("src", some u) :: rest)) = Except.ok s' ∧
      D.lookup "src" = some (some u) ∧
      attrStrE D = Except.ok str ∧
      s'.nonAllowedTagCountInStack = s.nonAllowedTagCountInStack ∧
      s'.tagStack = s.tagStack ∧
      s'.parseError = s.parseError ∧
      s'.warnings = s.warnings ++ ["Failed to download " ++ u] ∧
      s'.output = s.output ++
        (if s.nonAllowedTagCountInStack = 0
          then ["<" ++ "img" ++ str ++ ">"] else []) := by
  have hdl : downloadMediaE o u = Except.ok none := by
    unfold downloadMediaE
    rw [hfile]
    simp only [Bool.false_eq_true, if_false, hnet2]
  refine ⟨hdl, ?_⟩
  have hv : ∀ kv ∈ ("src", some u) :: rest, kv.2.isSome = true := by
    intro kv h
    rcases List.mem_cons.mp h with h1 | h1
    · rw [h1]; rfl
    · exact hrest kv h1
  obtain ⟨styleRaw, hsr⟩ := styleRawE_ok (("src", some u) :: rest) hv
  set D := attrDictAfterStyle "img" (("src", some u) :: rest) styleRaw with hD
  have hvD : ∀ kv ∈ D, kv.2.isSome = true :=
    attrDictAfterStyle_values "img" _ styleRaw hv
  have hsrcPA : (parseAttrs (("src", some u) :: rest)).lookup "src"
      = some (some u) := by
    unfold parseAttrs
    simp only [List.foldl_cons]
    rw [if_pos (by decide : ("src" : String) ∈ _allowedAttributes)]
    rw [lookup_foldl_attrStep_not_mem hnosrc]
    exact lookup_dictSet_self _ _ _
  have hsrcD : D.lookup "src" = some (some u) := by
    rw [hD]
    unfold attrDictAfterStyle
    split
    · rw [lookup_dictDel_ne _ _ _ (by decide)]
      exact hsrcPA
    · rw [lookup_dictSet_ne _ _ _ _ (by decide)]
      exact hsrcPA
  have himg : imgStepE o "img" D
      = Except.ok (D, ["Failed to download " ++ u]) := by
    unfold imgStepE
    rw [if_pos rfl, hsrcD]
    simp only [hdl, bindE_ok]
  obtain ⟨str, hstr⟩ := attrStrE_ok hvD
  have hps : pureStartE o "img" (("src", some u) :: rest)
      = Except.ok (D, "<" ++ "img" ++ str ++ ">",
          ["Failed to download " ++ u]) := by
    simp only [pureStartE, hsr, bindE_ok, ← hD, himg, hstr]
  have hpush : pushTag s "img" = s := by
    unfold pushTag
    rw [if_pos (by decide)]
  by_cases hz : s.nonAllowedTagCountInStack = 0
  · refine ⟨D, str,
      { s with
        warnings := s.warnings ++ ["Failed to download " ++ u],
        output := s.output ++ ["<" ++ "img" ++ str ++ ">"],
        emitted := s.emitted ++ [Tok.start "img" D] },
      ?_, hsrcD, hstr, rfl, rfl, rfl, rfl, by rw [if_pos hz]⟩
    simp only [stepE, handle_starttag]
    rw [if_neg (by decide : ¬ "img" ∈ _ignoredTags)]
    simp only [hps, hpush]
    simp [writeDataT, hz]
  · refine ⟨D, str,
      { s with
        warnings := s.warnings ++ ["Failed to download " ++ u] },
      ?_, hsrcD, hstr, rfl, rfl, rfl, rfl, by rw [if_neg hz]; simp⟩
    simp only [stepE, handle_starttag]
    rw [if_neg (by decide : ¬ "img" ∈ _ignoredTags)]
    simp only [hps, hpush]
    simp [writeDataT, hz]

theorem C8_witness :
    downloadMediaE oracleFail "http://x/y.png" = Except.ok none ∧
    ∃ D str s',
      stepE oracleFail initState
        (Tok.start "img" (("src", some "http://x/y.png") :: []))
        = Except.ok s' ∧
      D.lookup "src" = some (some "http://x/y.png") ∧
      attrStrE D = Except.ok str ∧
      s'.nonAllowedTagCountInStack = initState.nonAllowedTagCountInStack ∧
      s'.tagStack = initState.tagStack ∧
      s'.parseError = initState.parseError ∧
      s'.warnings = initState.warnings ++
        ["Failed to download " ++ "http://x/y.png"] ∧
      s'.output = initState.output ++
        (if initState.nonAllowedTagCountInStack = 0
          then ["<" ++ "img" ++ str ++ ">"] else []) :=
  C8_graceful_media_failure oracleFail initState "http://x/y.png" []
    (by decide) rfl (by simp) (by simp)

theorem matchKeyAux_key_shape (cs : List Char) :
    ∀ acc k v r, matchKeyAux acc cs = some (k, v, r) → ¬ k.toList = [] := by
  induction cs with
  | nil => intro acc k v r h; simp [matchKeyAux] at h
  | cons c rest ih =>
    intro acc k v r h
    unfold matchKeyAux at h
    by_cases hcn : c = '\n'
    · rw [if_pos hcn] at h; simp at h
    · rw [if_neg hcn] at h
      cases hskip : skipSpacesColon rest with
      | some t =>
        rw [hskip] at h
        dsimp only at h
        cases hmv : matchSpacesValue t with
        | some p =>
          obtain ⟨v2, rem⟩ := p
          rw [hmv] at h
          simp only [Option.some.injEq, Prod.mk.injEq] at h
          obtain ⟨hkk, _, _⟩ := h
          rw [← hkk, toList_mk]
          simp
        | none =>
          rw [hmv] at h
          exact ih _ k v r h
      | none =>
        rw [hskip] at h
        dsimp only at h
        exact ih _ k v r h

theorem findall_key_ne_aux (fuel : Nat) :
    ∀ cs k v, (k, v) ∈ findallAux fuel cs → ¬ k.toList = [] := by
  induction fuel with
  | zero => intro cs k v h; simp [findallAux] at h
  | succ f ih =>
    intro cs k v h
    cases cs with
    | nil => simp [findallAux] at h
    | cons c rest =>
      unfold findallAux at h
      cases hm : matchKeyAux [] (c :: rest) with
      | some p =>
        obtain ⟨k2, v2, rem⟩ := p
        rw [hm] at h
        rcases List.mem_cons.mp h with h1 | h1
        · simp only [Prod.mk.injEq] at h1
          obtain ⟨h1k, _⟩ := h1
          subst h1k
          exact matchKeyAux_key_shape _ _ _ _ _ hm
        · exact ih rem k v h1
      | none =>
        rw [hm] at h
        exact ih rest k v h

theorem map_mk_quads (ps : List (String × String × Nat × Nat)) :
    (ps.map fun e => (e.1.toList, e.2.1.toList, e.2.2.1, e.2.2.2)).map
      (fun e => (String.mk e.1, String.mk e.2.1))
      = ps.map (fun e => (e.1, e.2.1)) := by
  induction ps with
  | nil => rfl
  | cons e ps ih =>
    simp only [List.map_cons, ih]
    rfl

/-- C9, amended.  The style parser is a total function that recovers,
in order, every `property : value ;` declaration, tolerating arbitrary
runs of spaces around the colon (but not elsewhere: a space before the
property name becomes part of the name, see the counterexample); it
never returns a pair with an empty property or an empty value; and at
the consumer a later duplicate of a whitelisted property overwrites the
earlier one's value. -/
theorem C9_style_declaration_parsing :
    (∀ ps : List (String × String × Nat × Nat),
      (∀ e ∈ ps, NiceKeyL e.1.toList ∧ StableValL e.2.1.toList) →
      styleRegexFindall (String.mk (spacedJoinChars
        (ps.map fun e => (e.1.toList, e.2.1.toList, e.2.2.1, e.2.2.2))))
        = ps.map (fun e => (e.1, e.2.1))) ∧
    (∀ s k v, (k, v) ∈ styleRegexFindall s → ¬ k = "" ∧ ¬ v = "") ∧
    (∀ ps k v, k ∈ _allowedStyles →
      (filterStyles (ps ++ [(k, v)])).lookup k = some v) := by
  refine ⟨?_, ?_, ?_⟩
  · intro ps h
    unfold styleRegexFindall
    rw [toList_mk]
    rw [findallAux_round_trip _ (by
      intro e he
      obtain ⟨e0, he0, heq⟩ := List.mem_map.mp he
      rw [← heq]
      exact h e0 he0) _ le_rfl]
    exact map_mk_quads ps
  · intro s k v h
    constructor
    · intro hk
      exact findall_key_ne_aux _ _ k v h (by rw [hk]; rfl)
    · intro hv
      exact (findall_val_shape s k v h).1 (by rw [hv]; rfl)
  · intro ps k v hk
    unfold filterStyles
    rw [List.foldl_append]
    simp only [List.foldl_cons, List.foldl_nil]
    rw [if_pos hk]
    exact lookup_dictSet_self _ _ _

theorem C9_witness :
    styleRegexFindall (String.mk (spacedJoinChars
      ([("color", "red", 1, 1), ("font-style", "italic", 0, 2)].map
        fun e => (e.1.toList, e.2.1.toList, e.2.2.1, e.2.2.2))))
      = [("color", "red"), ("font-style", "italic")] ∧
    (filterStyles ([("color", "blue")] ++ [("color", "red")])).lookup "color"
      = some "red" :=
  ⟨C9_style_declaration_parsing.1
      [("color", "red", 1, 1), ("font-style", "italic", 0, 2)] (by decide),
    C9_style_declaration_parsing.2.2 [("color", "blue")] "color" "red"
      (by decide)⟩

/-- C5 (corrected): idempotence holds on the cleaner's own emissions under
the conditions that make the first pass well-defined and faithful.  If
every token carries valued attributes, no `img` start tag carries a `src`
attribute (media rewriting aside, as the claim allows), no author style
value parses with a leading space, and the suppression counter stays
nonnegative throughout, then a successful first pass over `toks` ending
in state `s` yields the output string `stripBlankLines (String.join
s.output)`, and running the cleaner again over the token sequence it
emitted (`s.emitted`, the tokenization of its output) produces exactly
the same string: no tag, attribute, or style value changes on the second
pass. -/
theorem C5_idempotent_on_emitted (toks : List Tok) (s : CleanerState)
    (hv : ∀ t ∈ toks, valuedTok t ∧ noImgSrcTok t ∧ stableStyleTok t)
    (hcnt : CountsOk 0 toks)
    (hrun : processE oracleFail initState toks = Except.ok s) :
    cleanTagE oracleFail toks
        = Except.ok (stripBlankLines (String.join s.output)) ∧
      cleanTagE oracleFail s.emitted
        = Except.ok (stripBlankLines (String.join s.output)) := by
  have hinv := pass1_inv oracleFail toks initState hv hcnt (le_refl 0)
    (fun e he => absurd he (List.not_mem_nil e)) rfl s hrun
  obtain ⟨hge, hoe⟩ := hinv
  constructor
  · unfold cleanTagE
    rw [hrun, bindE_ok]
  · obtain ⟨s2, hs2, hc2, ho2⟩ := goodRun oracleFail s.emitted initState hge rfl
    unfold cleanTagE
    rw [hs2, bindE_ok]
    have houts : s2.output = s.output := by
      rw [ho2, hoe]
      rfl
    rw [houts]

theorem C5_witness :
    cleanTagE oracleFail [Tok.start "div" [], Tok.data "x", Tok.endtag "div"]
        = Except.ok "<div style=\"padding:.2em;\">x</div>" ∧
      cleanTagE oracleFail [Tok.start "div" [("style", some "padding:.2em;")],
          Tok.data "x", Tok.endtag "div"]
        = Except.ok "<div style=\"padding:.2em;\">x</div>" :=
  C5_idempotent_on_emitted
    [Tok.start "div" [], Tok.data "x", Tok.endtag "div"]
    { nonAllowedTagCountInStack := 0,
      output := ["<div style=\"padding:.2em;\">", "x", "</div>"],
      tagStack := [], parseError := false, warnings := [],
      emitted := [Tok.start "div" [("style", some "padding:.2em;")],
        Tok.data "x", Tok.endtag "div"] }
    (by decide) (by decide) (by rfl)
